import Mathlib

/-!
Verification of the nio-harvest pipeline (cleaner.py, scorer.py, fetcher.py,
main.py, app.py) against its natural-language specification.

Python strings are modelled as lists of characters (`Str`); Python `dict`
records are modelled as structures carrying the fields the code reads; the
network and the LLM oracle are modelled as explicit parameters enumerating the
outcomes the code distinguishes (success / HTTP 404 / raised exception /
unparseable payload).  Every definition is a direct translation of the cited
source lines; external-library steps (BeautifulSoup parsing, the HTTP client
itself, `datetime` parsing) appear as oracle parameters, never as stubs of
repository code.
-/

namespace NioHarvest

/-- Model of a Python string: its list of characters (code points). -/
abbrev Str := List Char

/-- The whitespace characters stripped by Python `str.strip()` (space, tab,
newline, carriage return, vertical tab, form feed).  Python additionally
strips a few rare Unicode space code points; no claim depends on the exact
set. -/
def isPySpace (c : Char) : Bool :=
  c = ' ' || c = '\t' || c = '\n' || c = '\r' || c = '\x0b' || c = '\x0c'

/-- Python `s.strip()`: drop leading and trailing whitespace. -/
def pyStrip (l : Str) : Str :=
  ((l.dropWhile isPySpace).reverse.dropWhile isPySpace).reverse

/-- Python `text.split("\n\n")` (cleaner.py line 22): split on the
two-newline separator, taking leftmost non-overlapping occurrences.  `acc`
holds the characters of the piece being built, in reverse. -/
def splitPar : Str → Str → List Str
  | [], acc => [acc.reverse]
  | [c], acc => [(c :: acc).reverse]
  | a :: b :: rest, acc =>
    if a = '\n' ∧ b = '\n' then acc.reverse :: splitPar rest []
    else splitPar (b :: rest) (a :: acc)

/-- The stripped, non-empty paragraphs of the extracted text
(cleaner.py line 22). -/
def paragraphsOf (text : Str) : List Str :=
  ((splitPar text []).map pyStrip).filter (fun p => !p.isEmpty)

/-- The paragraphs surviving the minimum-length filter (cleaner.py line 25). -/
def validParagraphs (text : Str) (minLength : Nat) : List Str :=
  (paragraphsOf text).filter (fun p => decide (minLength ≤ p.length))

/-- The chunk-building loop of cleaner.py lines 31-49: `ps` are the remaining
paragraphs, `current` is `current_chunk`, `chunks` the accumulator.  The
Python guard `len(current_chunk) + len(paragraph) + 2 > max_chunk_len` is the
condition `maxChunkLen < current.length + p.length + 2`. -/
def buildChunksAux (maxChunkLen : Nat) : List Str → Str → List Str → List Str
  | [], current, chunks =>
    if pyStrip current ≠ [] then chunks ++ [pyStrip current] else chunks
  | p :: ps, current, chunks =>
    if current ≠ [] ∧ maxChunkLen < current.length + p.length + 2 then
      buildChunksAux maxChunkLen ps p (chunks ++ [pyStrip current])
    else
      buildChunksAux maxChunkLen ps
        (if current ≠ [] then current ++ '\n' :: '\n' :: p else p) chunks

/-- Model of `clean_and_chunk` (cleaner.py lines 5-51), starting from the text
extracted by `soup.get_text(separator="\n\n")` (line 19).  The HTML parsing
and junk-tag removal of lines 10-16 happen inside the external BeautifulSoup
library and are outside the model; for tag-free input `get_text` is the
identity, so `text` here ranges over every possible extracted text.  The
guard `if not html_content` of line 7 is subsumed: empty text yields no valid
paragraph. -/
def clean_and_chunk (text : Str) (min_length : Nat := 50)
    (max_chunk_len : Nat := 1000) : List Str :=
  if validParagraphs text min_length = [] then []
  else buildChunksAux max_chunk_len (validParagraphs text min_length) [] []

/-- Join a group of paragraphs with the two-newline separator: the value
`current_chunk` holds after merging exactly this group. -/
def sepJoin : List Str → Str
  | [] => []
  | [p] => p
  | p :: q :: ps => p ++ '\n' :: '\n' :: sepJoin (q :: ps)

/-- Group-level reformulation of the chunk-building loop: instead of the
joined string `current_chunk` it carries the group of paragraphs merged into
it.  Proved equal (after `sepJoin`) to `buildChunksAux` below. -/
def greedyGroups (maxChunkLen : Nat) : List Str → List Str → List (List Str)
  | [], cur => if cur = [] then [] else [cur]
  | p :: ps, cur =>
    if cur ≠ [] ∧ maxChunkLen < (sepJoin cur).length + p.length + 2 then
      cur :: greedyGroups maxChunkLen ps [p]
    else greedyGroups maxChunkLen ps (cur ++ [p])

/-- No two adjacent newline characters.  Every piece produced by `splitPar`
satisfies this: two adjacent newlines always act as a separator. -/
def NoPar (l : Str) : Prop := l.Chain' fun a b => ¬(a = '\n' ∧ b = '\n')

/-- A paragraph as it enters the chunk-building loop: non-empty, free of the
separator, and stripped (no whitespace at either end). -/
def GoodPiece (p : Str) : Prop :=
  p ≠ [] ∧ NoPar p ∧ (∀ c ∈ p.head?, isPySpace c = false) ∧
    (∀ c ∈ p.getLast?, isPySpace c = false)

/-! Basic facts about `pyStrip`. -/

theorem dropWhile_eq_self_of_head {α : Type} (p : α → Bool) (l : List α)
    (h : ∀ c ∈ l.head?, p c = false) : l.dropWhile p = l := by
  cases l with
  | nil => rfl
  | cons a t =>
    have ha : p a = false := h a rfl
    simp [List.dropWhile_cons, ha]

theorem pyStrip_eq_self {l : Str} (h1 : ∀ c ∈ l.head?, isPySpace c = false)
    (h2 : ∀ c ∈ l.getLast?, isPySpace c = false) : pyStrip l = l := by
  unfold pyStrip
  rw [dropWhile_eq_self_of_head _ _ h1,
    dropWhile_eq_self_of_head _ _ (by simpa using h2), List.reverse_reverse]

theorem pyStrip_eq_nil {l : Str} (h : ∀ c ∈ l, isPySpace c = true) :
    pyStrip l = [] := by
  unfold pyStrip
  rw [List.dropWhile_eq_nil_iff.mpr fun x hx => h x hx]
  rfl

/-- The result of stripping the end of a reversed list is a reversed front
portion of the original list. -/
theorem reverse_dropWhile_isPre {α : Type} (p : α → Bool) (m : List α) :
    (m.reverse.dropWhile p).reverse <+: m := by
  obtain ⟨t, ht⟩ := List.dropWhile_suffix (l := m.reverse) p
  exact ⟨t.reverse, by rw [← List.reverse_append, ht, List.reverse_reverse]⟩

theorem pyStrip_isPre (l : Str) : pyStrip l <+: l.dropWhile isPySpace :=
  reverse_dropWhile_isPre isPySpace (l.dropWhile isPySpace)

theorem pyStrip_head (l : Str) : ∀ c ∈ (pyStrip l).head?, isPySpace c = false := by
  intro c hc
  rw [Option.mem_def] at hc
  obtain ⟨t, ht⟩ := pyStrip_isPre l
  have h2 : (l.dropWhile isPySpace).head? = some c := by
    rw [← ht, List.head?_append, hc]; rfl
  have h3 := List.head?_dropWhile_not isPySpace l
  rw [h2] at h3
  exact h3

theorem pyStrip_getLast (l : Str) :
    ∀ c ∈ (pyStrip l).getLast?, isPySpace c = false := by
  intro c hc
  rw [Option.mem_def] at hc
  unfold pyStrip at hc
  rw [List.getLast?_reverse] at hc
  have h3 := List.head?_dropWhile_not isPySpace ((l.dropWhile isPySpace).reverse)
  rw [hc] at h3
  exact h3

/-! Facts about `NoPar` (absence of the paragraph separator). -/

theorem NoPar.rev {l : Str} (h : NoPar l) : NoPar l.reverse := by
  rw [NoPar, List.chain'_reverse]
  exact List.Chain'.imp (fun a b hab hc => hab ⟨hc.2, hc.1⟩) h

theorem NoPar.ofSuffix {l l' : Str} (h : NoPar l) (hs : l' <:+ l) : NoPar l' :=
  List.Chain'.suffix h hs

theorem NoPar.strip {l : Str} (h : NoPar l) : NoPar (pyStrip l) :=
  ((h.ofSuffix (List.dropWhile_suffix _)).rev.ofSuffix
    (List.dropWhile_suffix _)).rev

/-- Every piece produced by `splitPar` is free of adjacent newlines: two
adjacent newlines always act as a separator. -/
theorem splitPar_pieces_noPar :
    ∀ (text acc : Str), NoPar acc.reverse →
      (∀ a ∈ acc.head?, ∀ b ∈ text.head?, ¬(a = '\n' ∧ b = '\n')) →
      ∀ p ∈ splitPar text acc, NoPar p := by
  intro text acc h1 h2 p hp
  induction text, acc using splitPar.induct with
  | case1 acc =>
    simp only [splitPar, List.mem_singleton] at hp
    exact hp ▸ h1
  | case2 c acc =>
    simp only [splitPar, List.mem_singleton] at hp
    subst hp
    rw [List.reverse_cons]
    refine List.Chain'.append h1 (List.chain'_singleton c) ?_
    intro x hx y hy
    rw [List.getLast?_reverse] at hx
    rw [List.head?_cons, Option.mem_def, Option.some_inj] at hy
    exact hy ▸ h2 x hx c rfl
  | case3 a b rest acc hab ih =>
    rw [splitPar, if_pos hab] at hp
    rcases List.mem_cons.mp hp with hp | hp
    · exact hp ▸ h1
    · exact ih (by simp [NoPar]) (by simp) hp
  | case4 a b rest acc hab ih =>
    rw [splitPar, if_neg hab] at hp
    refine ih ?_ ?_ hp
    · rw [List.reverse_cons]
      refine List.Chain'.append h1 (List.chain'_singleton a) ?_
      intro x hx y hy
      rw [List.getLast?_reverse] at hx
      rw [List.head?_cons, Option.mem_def, Option.some_inj] at hy
      exact hy ▸ h2 x hx a rfl
    · intro x hx y hy
      rw [List.head?_cons, Option.mem_def, Option.some_inj] at hx hy
      exact hx ▸ hy ▸ hab

/-- Every paragraph surviving the filters of cleaner.py lines 22-25 enters the
chunk loop non-empty, stripped, separator-free, and at least `minLength`
long. -/
theorem validParagraphs_good (text : Str) (minLength : Nat) :
    ∀ p ∈ validParagraphs text minLength, GoodPiece p ∧ minLength ≤ p.length := by
  intro p hp
  rw [validParagraphs, List.mem_filter] at hp
  obtain ⟨hp, hlen⟩ := hp
  rw [paragraphsOf, List.mem_filter] at hp
  obtain ⟨hp, hne⟩ := hp
  obtain ⟨q, hq, rfl⟩ := List.mem_map.mp hp
  have hnq : NoPar (pyStrip q) :=
    (splitPar_pieces_noPar text [] (by simp [NoPar]) (by simp) q hq).strip
  refine ⟨⟨?_, hnq, pyStrip_head q, pyStrip_getLast q⟩, by simpa using hlen⟩
  simpa using hne

/-! Facts about `sepJoin`. -/

theorem sepJoin_ne_nil : ∀ {g : List Str}, (∀ p ∈ g, p ≠ []) → g ≠ [] →
    sepJoin g ≠ []
  | [], _, hg => absurd rfl hg
  | [p], h, _ => by simpa [sepJoin] using h p (by simp)
  | p :: q :: ps, h, _ => by
    have hp := h p (by simp)
    cases p with
    | nil => exact absurd rfl hp
    | cons a t => simp [sepJoin]

theorem sepJoin_append : ∀ (a : List Str), a ≠ [] → ∀ (b : List Str), b ≠ [] →
    sepJoin (a ++ b) = sepJoin a ++ '\n' :: '\n' :: sepJoin b
  | [], ha, _, _ => absurd rfl ha
  | [x], _, b, hb => by
    cases b with
    | nil => exact absurd rfl hb
    | cons y bs => simp [sepJoin]
  | x :: y :: as, _, b, hb => by
    have ih := sepJoin_append (y :: as) (by simp) b hb
    simp only [List.cons_append, sepJoin, List.append_eq] at ih ⊢
    rw [ih]
    simp

theorem sepJoin_snoc (cur : List Str) (hcur : cur ≠ []) (p : Str) :
    sepJoin (cur ++ [p]) = sepJoin cur ++ '\n' :: '\n' :: p :=
  sepJoin_append cur hcur [p] (by simp)

theorem sepJoin_head_prop (P : Char → Prop) :
    ∀ g : List Str, (∀ p ∈ g, p ≠ []) → (∀ p ∈ g, ∀ c ∈ p.head?, P c) →
      ∀ c ∈ (sepJoin g).head?, P c
  | [], _, _ => by simp [sepJoin]
  | [p], _, h => h p (by simp)
  | p :: q :: ps, hne, h => by
    intro c hc
    have hp := hne p (by simp)
    cases p with
    | nil => exact absurd rfl hp
    | cons a t =>
      simp only [sepJoin, List.cons_append, List.head?_cons, Option.mem_def,
        Option.some_inj] at hc
      exact hc ▸ h (a :: t) (by simp) a rfl

theorem sepJoin_getLast_prop (P : Char → Prop) :
    ∀ g : List Str, (∀ p ∈ g, p ≠ []) → (∀ p ∈ g, ∀ c ∈ p.getLast?, P c) →
      ∀ c ∈ (sepJoin g).getLast?, P c
  | [], _, _ => by simp [sepJoin]
  | [p], _, h => h p (by simp)
  | p :: q :: ps, hne, h => by
    intro c hc
    have hrest : sepJoin (q :: ps) ≠ [] :=
      sepJoin_ne_nil (fun x hx => hne x (List.mem_cons_of_mem p hx)) (by simp)
    have ih := sepJoin_getLast_prop P (q :: ps)
      (fun x hx => hne x (List.mem_cons_of_mem p hx))
      (fun x hx => h x (List.mem_cons_of_mem p hx))
    rw [sepJoin, List.getLast?_append] at hc
    cases hj : (sepJoin (q :: ps)) with
    | nil => exact absurd hj hrest
    | cons d m =>
      rw [hj] at hc
      simp only [List.getLast?_cons_cons, Option.mem_def] at hc
      apply ih c
      rw [hj]
      simpa using hc

theorem pyStrip_sepJoin (g : List Str) (hg : ∀ p ∈ g, GoodPiece p) :
    pyStrip (sepJoin g) = sepJoin g :=
  pyStrip_eq_self
    (sepJoin_head_prop _ g (fun p hp => (hg p hp).1) fun p hp => (hg p hp).2.2.1)
    (sepJoin_getLast_prop _ g (fun p hp => (hg p hp).1) fun p hp => (hg p hp).2.2.2)

/-! The chunk-building loop, reformulated at the level of paragraph groups. -/

theorem buildChunksAux_eq_greedy (maxLen : Nat) :
    ∀ (ps cur : List Str) (chunks : List Str),
      (∀ p ∈ ps, GoodPiece p) → (∀ p ∈ cur, GoodPiece p) →
      buildChunksAux maxLen ps (sepJoin cur) chunks
        = chunks ++ (greedyGroups maxLen ps cur).map sepJoin := by
  intro ps
  induction ps with
  | nil =>
    intro cur chunks _ hcur
    rw [buildChunksAux, pyStrip_sepJoin cur hcur, greedyGroups]
    by_cases h : cur = []
    · subst h
      simp [sepJoin]
    · rw [if_pos (sepJoin_ne_nil (fun p hp => (hcur p hp).1) h), if_neg h]
      simp
  | cons p ps ih =>
    intro cur chunks hps hcur
    have hpg : GoodPiece p := hps p (by simp)
    have hps' : ∀ x ∈ ps, GoodPiece x := fun x hx => hps x (by simp [hx])
    by_cases h : cur = []
    · subst h
      rw [buildChunksAux, greedyGroups]
      have hJ : sepJoin ([] : List Str) = [] := rfl
      rw [hJ]
      simp only [ne_eq, not_true_eq_false, false_and, if_false, if_neg
        (by simp : ¬(([] : Str) ≠ [] ∧ maxLen < ([] : Str).length + p.length + 2))]
      have : buildChunksAux maxLen ps p chunks
          = buildChunksAux maxLen ps (sepJoin [p]) chunks := rfl
      rw [this, ih [p] chunks hps' (by simpa using hpg)]
      simp
    · have hJne : sepJoin cur ≠ [] := sepJoin_ne_nil (fun x hx => (hcur x hx).1) h
      rw [buildChunksAux, greedyGroups]
      by_cases hcond : maxLen < (sepJoin cur).length + p.length + 2
      · rw [if_pos ⟨hJne, hcond⟩, if_pos ⟨h, hcond⟩]
        have : buildChunksAux maxLen ps p (chunks ++ [pyStrip (sepJoin cur)])
            = buildChunksAux maxLen ps (sepJoin [p])
              (chunks ++ [pyStrip (sepJoin cur)]) := rfl
        rw [this, ih [p] _ hps' (by simpa using hpg), pyStrip_sepJoin cur hcur]
        simp
      · have hnot : ¬(sepJoin cur ≠ [] ∧
            maxLen < (sepJoin cur).length + p.length + 2) := fun hc => hcond hc.2
        have hnot2 : ¬(cur ≠ [] ∧
            maxLen < (sepJoin cur).length + p.length + 2) := fun hc => hcond hc.2
        rw [if_neg hnot, if_neg hnot2, if_pos hJne, ← sepJoin_snoc cur h p,
          ih (cur ++ [p]) chunks hps' (by
            intro x hx
            rcases List.mem_append.mp hx with hx | hx
            · exact hcur x hx
            · simpa using (List.mem_singleton.mp hx) ▸ hpg)]

theorem clean_and_chunk_eq_greedy (text : Str) (minLen maxLen : Nat) :
    clean_and_chunk text minLen maxLen
      = (greedyGroups maxLen (validParagraphs text minLen) []).map sepJoin := by
  unfold clean_and_chunk
  by_cases h : validParagraphs text minLen = []
  · rw [if_pos h, h]
    rfl
  · rw [if_neg h]
    exact buildChunksAux_eq_greedy maxLen (validParagraphs text minLen) [] []
      (fun p hp => (validParagraphs_good text minLen p hp).1) (by simp)

/-! Properties of the greedy grouping. -/

theorem greedyGroups_flatten (maxLen : Nat) :
    ∀ (ps cur : List Str), (greedyGroups maxLen ps cur).flatten = cur ++ ps := by
  intro ps
  induction ps with
  | nil =>
    intro cur
    rw [greedyGroups]
    by_cases h : cur = [] <;> simp [h]
  | cons p ps ih =>
    intro cur
    rw [greedyGroups]
    by_cases h : cur ≠ [] ∧ maxLen < (sepJoin cur).length + p.length + 2
    · rw [if_pos h]
      simp [ih]
    · rw [if_neg h, ih]
      simp

theorem greedyGroups_ne_nil (maxLen : Nat) :
    ∀ (ps cur : List Str), cur ≠ [] → ∀ g ∈ greedyGroups maxLen ps cur, g ≠ [] := by
  intro ps
  induction ps with
  | nil =>
    intro cur hcur g hg
    rw [greedyGroups, if_neg hcur] at hg
    simpa using List.mem_singleton.mp hg ▸ hcur
  | cons p ps ih =>
    intro cur hcur g hg
    rw [greedyGroups] at hg
    by_cases h : cur ≠ [] ∧ maxLen < (sepJoin cur).length + p.length + 2
    · rw [if_pos h] at hg
      rcases List.mem_cons.mp hg with hg | hg
      · exact hg ▸ hcur
      · exact ih [p] (by simp) g hg
    · rw [if_neg h] at hg
      exact ih (cur ++ [p]) (by simp) g hg

theorem greedyGroups_start_ne_nil (maxLen : Nat) (ps : List Str) :
    ∀ g ∈ greedyGroups maxLen ps [], g ≠ [] := by
  cases ps with
  | nil => simp [greedyGroups]
  | cons p ps =>
    intro g hg
    rw [greedyGroups, if_neg (by simp)] at hg
    exact greedyGroups_ne_nil maxLen ps [p] (by simp) g hg

theorem greedyGroups_result_ne_nil (maxLen : Nat) :
    ∀ (ps cur : List Str), cur ≠ [] → greedyGroups maxLen ps cur ≠ [] := by
  intro ps
  induction ps with
  | nil =>
    intro cur hcur
    rw [greedyGroups, if_neg hcur]
    simp
  | cons p ps ih =>
    intro cur hcur
    rw [greedyGroups]
    by_cases h : cur ≠ [] ∧ maxLen < (sepJoin cur).length + p.length + 2
    · rw [if_pos h]
      simp
    · rw [if_neg h]
      exact ih (cur ++ [p]) (by simp)

theorem greedyGroups_bound (maxLen : Nat) :
    ∀ (ps cur : List Str),
      (2 ≤ cur.length → (sepJoin cur).length ≤ maxLen) →
      ∀ g ∈ greedyGroups maxLen ps cur,
        2 ≤ g.length → (sepJoin g).length ≤ maxLen := by
  intro ps
  induction ps with
  | nil =>
    intro cur hbound g hg
    rw [greedyGroups] at hg
    by_cases h : cur = []
    · rw [if_pos h] at hg
      simp at hg
    · rw [if_neg h] at hg
      exact List.mem_singleton.mp hg ▸ hbound
  | cons p ps ih =>
    intro cur hbound g hg
    rw [greedyGroups] at hg
    by_cases h : cur ≠ [] ∧ maxLen < (sepJoin cur).length + p.length + 2
    · rw [if_pos h] at hg
      rcases List.mem_cons.mp hg with hg | hg
      · exact hg ▸ hbound
      · exact ih [p] (by simp) g hg
    · rw [if_neg h] at hg
      refine ih (cur ++ [p]) ?_ g hg
      intro h2
      by_cases hc : cur = []
      · subst hc
        simp at h2
      · have hle : (sepJoin cur).length + p.length + 2 ≤ maxLen := by
          rcases not_and_or.mp h with h1 | h1
          · exact absurd hc (by simpa using h1)
          · omega
        rw [sepJoin_snoc cur hc p]
        simp only [List.length_append, List.length_cons]
        omega

/-! Inversion: splitting a separator-joined group recovers the group. -/

theorem splitPar_no_sep : ∀ (p : Str), NoPar p →
    ∀ acc : Str, splitPar p acc = [acc.reverse ++ p] := by
  intro p
  induction p with
  | nil => intro _ acc; simp [splitPar]
  | cons c p' ih =>
    intro hnp acc
    cases p' with
    | nil => simp [splitPar]
    | cons d p'' =>
      have hcd : ¬(c = '\n' ∧ d = '\n') := (List.chain'_cons.mp hnp).1
      rw [splitPar, if_neg hcd, ih (List.chain'_cons.mp hnp).2 (c :: acc)]
      simp

theorem splitPar_sep : ∀ (p : Str), NoPar p → (∀ c ∈ p.getLast?, c ≠ '\n') →
    ∀ (rest acc : Str),
      splitPar (p ++ '\n' :: '\n' :: rest) acc
        = (acc.reverse ++ p) :: splitPar rest [] := by
  intro p
  induction p with
  | nil =>
    intro _ _ rest acc
    simp [splitPar]
  | cons c p' ih =>
    intro hnp hlast rest acc
    cases p' with
    | nil =>
      have hc : c ≠ '\n' := hlast c rfl
      rw [List.cons_append, List.nil_append, splitPar,
        if_neg (fun hn => hc hn.1), splitPar, if_pos ⟨rfl, rfl⟩]
      simp
    | cons d p'' =>
      have hcd : ¬(c = '\n' ∧ d = '\n') := (List.chain'_cons.mp hnp).1
      rw [List.cons_append, List.cons_append] at *
      rw [splitPar, if_neg hcd]
      have := ih (List.chain'_cons.mp hnp).2
        (by simpa using hlast) rest (c :: acc)
      rw [List.cons_append] at this
      rw [this]
      simp

theorem splitPar_sepJoin : ∀ (g : List Str), (∀ p ∈ g, GoodPiece p) →
    g ≠ [] → splitPar (sepJoin g) [] = g := by
  intro g
  induction g with
  | nil => intro _ h; exact absurd rfl h
  | cons p g' ih =>
    intro hg _
    have hpg : GoodPiece p := hg p (by simp)
    cases g' with
    | nil =>
      rw [sepJoin, splitPar_no_sep p hpg.2.1]
      simp
    | cons q g'' =>
      have hlast : ∀ c ∈ p.getLast?, c ≠ '\n' := by
        intro c hc hn
        have := hpg.2.2.2 c hc
        rw [hn] at this
        simp [isPySpace] at this
      rw [sepJoin, splitPar_sep p hpg.2.1 hlast,
        ih (fun x hx => hg x (List.mem_cons_of_mem p hx)) (by simp)]
      simp

theorem sepJoin_map_sepJoin : ∀ gs : List (List Str), (∀ g ∈ gs, g ≠ []) →
    sepJoin (gs.map sepJoin) = sepJoin gs.flatten := by
  intro gs
  induction gs with
  | nil => intro _; rfl
  | cons g gs' ih =>
    intro h
    cases gs' with
    | nil => simp [sepJoin]
    | cons g2 gs'' =>
      have hg : g ≠ [] := h g (by simp)
      have hflat : (g2 :: gs'').flatten ≠ [] := by
        have : g2 ≠ [] := h g2 (by simp)
        cases g2 with
        | nil => exact absurd rfl this
        | cons x t => simp
      rw [List.map_cons, List.flatten_cons,
        sepJoin_append g hg (g2 :: gs'').flatten hflat,
        ← ih (fun x hx => h x (List.mem_cons_of_mem g hx))]
      cases hm : (g2 :: gs'').map sepJoin with
      | nil => simp at hm
      | cons y ys => rw [sepJoin]

/-- Characters of a piece of `splitPar text acc` come from `text` or `acc`. -/
theorem splitPar_piece_chars :
    ∀ (text acc : Str), ∀ p ∈ splitPar text acc, ∀ c ∈ p, c ∈ text ∨ c ∈ acc := by
  intro text acc
  induction text, acc using splitPar.induct with
  | case1 acc =>
    intro p hp c hc
    simp only [splitPar, List.mem_singleton] at hp
    subst hp
    exact Or.inr (List.mem_reverse.mp hc)
  | case2 x acc =>
    intro p hp c hc
    simp only [splitPar, List.mem_singleton] at hp
    subst hp
    rcases List.mem_cons.mp (List.mem_reverse.mp hc) with hc | hc
    · exact Or.inl (by simp [hc])
    · exact Or.inr hc
  | case3 a b rest acc hab ih =>
    intro p hp c hc
    rw [splitPar, if_pos hab] at hp
    rcases List.mem_cons.mp hp with hp | hp
    · exact Or.inr (List.mem_reverse.mp (hp ▸ hc))
    · rcases ih p hp c hc with h | h
      · exact Or.inl (by simp [h])
      · simp at h
  | case4 a b rest acc hab ih =>
    intro p hp c hc
    rw [splitPar, if_neg hab] at hp
    rcases ih p hp c hc with h | h
    · exact Or.inl (by simpa using Or.inr h)
    · rcases List.mem_cons.mp h with h | h
      · exact Or.inl (by simp [h])
      · exact Or.inr h

theorem validParagraphs_all_space (text : Str) (minLength : Nat)
    (h : ∀ c ∈ text, isPySpace c = true) : validParagraphs text minLength = [] := by
  rw [validParagraphs, paragraphsOf]
  have hf : ((splitPar text []).map pyStrip).filter (fun p => !p.isEmpty) = [] := by
    rw [List.filter_eq_nil_iff]
    intro p hp
    obtain ⟨q, hq, rfl⟩ := List.mem_map.mp hp
    have hq0 : pyStrip q = [] := pyStrip_eq_nil fun c hc => by
      rcases splitPar_piece_chars text [] q hq c hc with h1 | h1
      · exact h c h1
      · simp at h1
    simp [hq0]
  rw [hf]
  rfl

/-- C2: every chunk returned by `clean_and_chunk` is a non-empty
separator-join of one or more whole surviving paragraphs (each of length
at least `min_length`), and a chunk longer than `max_chunk_len` is a single
paragraph that itself exceeds `max_chunk_len`, returned untruncated. -/
theorem C2_chunk_structure (text : Str) (min_length max_chunk_len : Nat) :
    ∀ c ∈ clean_and_chunk text min_length max_chunk_len,
      c ≠ [] ∧
      ∃ g, g ≠ [] ∧
        (∀ p ∈ g, p ∈ validParagraphs text min_length ∧ min_length ≤ p.length) ∧
        c = sepJoin g ∧
        (max_chunk_len < c.length →
          ∃ p, g = [p] ∧ c = p ∧ max_chunk_len < p.length) := by
  intro c hc
  rw [clean_and_chunk_eq_greedy] at hc
  obtain ⟨g, hg, rfl⟩ := List.mem_map.mp hc
  have hgne : g ≠ [] := greedyGroups_start_ne_nil max_chunk_len _ g hg
  have hmem : ∀ p ∈ g, p ∈ validParagraphs text min_length := by
    intro p hp
    have hfl : p ∈ (greedyGroups max_chunk_len
        (validParagraphs text min_length) []).flatten :=
      List.mem_flatten.mpr ⟨g, hg, hp⟩
    rwa [greedyGroups_flatten, List.nil_append] at hfl
  refine ⟨sepJoin_ne_nil
      (fun p hp => (validParagraphs_good _ _ p (hmem p hp)).1.1) hgne,
    g, hgne,
    fun p hp => ⟨hmem p hp, (validParagraphs_good _ _ p (hmem p hp)).2⟩, rfl, ?_⟩
  intro hlen
  have hb := greedyGroups_bound max_chunk_len _ [] (by intro h2; simp at h2) g hg
  match g, hgne with
  | [p], _ => exact ⟨p, rfl, rfl, hlen⟩
  | p :: q :: g'', _ =>
    have h2 := hb (by simp)
    omega

/-- C3: joining the returned chunks with the paragraph separator and
splitting back reproduces exactly the filtered paragraph sequence (no
paragraph dropped, duplicated or reordered); the chunk sequence is empty
exactly when no paragraph survives, and empty or whitespace-only input
yields the empty chunk sequence. -/
theorem C3_concat_chunks (text : Str) (min_length max_chunk_len : Nat) :
    (clean_and_chunk text min_length max_chunk_len = []
      ↔ validParagraphs text min_length = []) ∧
    (clean_and_chunk text min_length max_chunk_len ≠ [] →
      splitPar (sepJoin (clean_and_chunk text min_length max_chunk_len)) []
        = validParagraphs text min_length) ∧
    ((∀ c ∈ text, isPySpace c = true) →
      clean_and_chunk text min_length max_chunk_len = []) := by
  have hgood := validParagraphs_good text min_length
  have heq := clean_and_chunk_eq_greedy text min_length max_chunk_len
  refine ⟨⟨?_, ?_⟩, ?_, ?_⟩
  · intro h
    by_contra hv
    rcases hval : validParagraphs text min_length with _ | ⟨p, ps⟩
    · exact hv hval
    rw [heq, hval, greedyGroups, if_neg (by simp)] at h
    exact greedyGroups_result_ne_nil max_chunk_len ps [p] (by simp)
      (List.map_eq_nil_iff.mp h)
  · intro h
    rw [clean_and_chunk, if_pos h]
  · intro hne
    rw [heq] at hne ⊢
    have hgs := greedyGroups_start_ne_nil max_chunk_len
      (validParagraphs text min_length)
    rw [sepJoin_map_sepJoin _ hgs, greedyGroups_flatten, List.nil_append]
    refine splitPar_sepJoin _ (fun p hp => (hgood p hp).1) ?_
    intro hv
    rw [hv] at hne
    exact hne rfl
  · intro hsp
    rw [clean_and_chunk, if_pos (validParagraphs_all_space text min_length hsp)]

theorem C2_chunk_structure_witness :
    "abcd".toList ∈ clean_and_chunk "abcd\n\nefgh".toList 2 5 ∧
      ("abcd".toList ≠ [] ∧
        ∃ g, g ≠ [] ∧
          (∀ p ∈ g, p ∈ validParagraphs "abcd\n\nefgh".toList 2 ∧
            2 ≤ p.length) ∧
          "abcd".toList = sepJoin g ∧
          (5 < "abcd".toList.length →
            ∃ p, g = [p] ∧ "abcd".toList = p ∧ 5 < p.length)) :=
  ⟨by decide, C2_chunk_structure "abcd\n\nefgh".toList 2 5 "abcd".toList (by decide)⟩

theorem C3_concat_chunks_witness :
    clean_and_chunk "ab\n\ncd".toList 2 5 ≠ [] ∧
      splitPar (sepJoin (clean_and_chunk "ab\n\ncd".toList 2 5)) []
        = validParagraphs "ab\n\ncd".toList 2 :=
  ⟨by decide, (C3_concat_chunks "ab\n\ncd".toList 2 5).2.1 (by decide)⟩

/-! Model of scorer.py (the Scoring Client). -/

/-- A parsed JSON value, as produced by `json.loads`. -/
inductive JsonVal where
  | null
  | bool (b : Bool)
  | num (n : Int)
  | str (s : Str)
  | arr (elems : List JsonVal)
  | obj (fields : List (Str × JsonVal))

instance : Inhabited JsonVal := ⟨JsonVal.null⟩

/-- Python `dict.get` on a JSON object: the value bound to the key, if any
(keys of a Python dict are unique, so first-binding lookup is exact). -/
def lookupField (k : Str) : List (Str × JsonVal) → Option JsonVal
  | [] => none
  | (k', v) :: rest => if k' = k then some v else lookupField k rest

/-- Outcome of the LLM call plus payload parse inside `score_chunk`
(scorer.py lines 48-67): the client call may raise, `json.loads` may raise
JSONDecodeError, or a JSON value is produced. -/
inductive OracleResult where
  | exn
  | notJson
  | json (v : JsonVal)

/-- The response field holding the candidate array. -/
def quotesKey : Str := "quotes".toList

/-- Model of `score_chunk` (scorer.py lines 43-86) as a function of the
oracle outcome for the submitted chunk.  `none` models returning Python
`None`; `some qs` a list of candidate objects.  A payload that parses but is
not a JSON object makes `data.get` raise AttributeError, which the blanket
`except Exception` (line 81) turns into `None`; a present `quotes` field that
is not an array is replaced by the empty list (line 71-73); a missing field
takes the `data.get("quotes", [])` default. -/
def score_chunk : OracleResult → Option (List JsonVal)
  | .exn => none
  | .notJson => none
  | .json (JsonVal.obj fields) =>
    match lookupField quotesKey fields with
    | none => some []
    | some (JsonVal.arr qs) => some qs
    | some _ => some []
  | .json _ => none

/-- C7: `score_chunk` never lets an exception escape (it is total over every
oracle behavior) and distinguishes exactly three outcomes: a well-formed
response yields its candidate list, a JSON object whose `quotes` field is
missing or not an array yields the empty list, and a transport or
payload-parse failure (including a parseable payload that is not a JSON
object, an invalid structured payload) yields the distinguished fatal signal
`none`, distinct from `some []`. -/
theorem C7_score_chunk_outcomes :
    (∀ fields qs, lookupField quotesKey fields = some (JsonVal.arr qs) →
      score_chunk (.json (.obj fields)) = some qs) ∧
    (∀ fields, lookupField quotesKey fields = none →
      score_chunk (.json (.obj fields)) = some []) ∧
    (∀ fields v, lookupField quotesKey fields = some v →
      (∀ qs, v ≠ JsonVal.arr qs) →
      score_chunk (.json (.obj fields)) = some []) ∧
    score_chunk .exn = none ∧ score_chunk .notJson = none ∧
    (∀ r, score_chunk r = none ↔
      r = .exn ∨ r = .notJson ∨
        ∃ v, r = .json v ∧ ∀ fields, v ≠ JsonVal.obj fields) := by
  refine ⟨?_, ?_, ?_, rfl, rfl, ?_⟩
  · intro fields qs h
    rw [score_chunk, h]
  · intro fields h
    rw [score_chunk, h]
  · intro fields v h hv
    rw [score_chunk, h]
    match v, hv with
    | JsonVal.null, _ => rfl
    | JsonVal.bool b, _ => rfl
    | JsonVal.num n, _ => rfl
    | JsonVal.str s, _ => rfl
    | JsonVal.arr qs, hv => exact absurd rfl (hv qs)
    | JsonVal.obj f, _ => rfl
  · intro r
    match r with
    | .exn => simp [score_chunk]
    | .notJson => simp [score_chunk]
    | .json v =>
      match v with
      | JsonVal.null => simp [score_chunk]
      | JsonVal.bool b => simp [score_chunk]
      | JsonVal.num n => simp [score_chunk]
      | JsonVal.str s => simp [score_chunk]
      | JsonVal.arr qs => simp [score_chunk]
      | JsonVal.obj fields =>
        constructor
        · intro h
          rw [score_chunk] at h
          rcases hl : lookupField quotesKey fields with _ | v'
          · rw [hl] at h
            simp at h
          · rw [hl] at h
            match v' with
            | JsonVal.null => simp at h
            | JsonVal.bool b => simp at h
            | JsonVal.num n => simp at h
            | JsonVal.str s => simp at h
            | JsonVal.arr qs => simp at h
            | JsonVal.obj f => simp at h
        · intro h
          rcases h with h | h | ⟨v, hv, hobj⟩
          · exact absurd h (by simp)
          · exact absurd h (by simp)
          · have : v = JsonVal.obj fields := by
              injection hv with hv'
              exact hv'.symm
            exact absurd this (hobj fields)

theorem C7_score_chunk_outcomes_witness :
    lookupField quotesKey [(quotesKey, JsonVal.arr [JsonVal.null])]
        = some (JsonVal.arr [JsonVal.null]) ∧
      score_chunk (.json (.obj [(quotesKey, JsonVal.arr [JsonVal.null])]))
        = some [JsonVal.null] :=
  ⟨rfl, C7_score_chunk_outcomes.1 _ [JsonVal.null] rfl⟩

/-- Oracle response whose quotes array has four candidate objects. -/
def fourQuotesResponse : OracleResult :=
  .json (.obj [(quotesKey,
    JsonVal.arr [JsonVal.null, JsonVal.null, JsonVal.null, JsonVal.null])])

/-- C6 counterexample: `score_chunk` applies no cap to the number of
candidates per chunk — with a response whose array holds four candidate
objects it returns all four, not at most three.  The limit of three exists
only in the prompt text sent to the oracle. -/
theorem C6_no_cap_counterexample :
    ((score_chunk fourQuotesResponse).getD []).length = 4 := rfl

/-- C6 amended: `score_chunk` returns the quotes array of the response
unchanged, so the number of Candidate records per chunk equals the length of
the oracle's response array, with no client-side maximum. -/
theorem C6_returns_full_array (fields : List (Str × JsonVal))
    (qs : List JsonVal)
    (h : lookupField quotesKey fields = some (JsonVal.arr qs)) :
    score_chunk (.json (.obj fields)) = some qs ∧
      ((score_chunk (.json (.obj fields))).getD []).length = qs.length := by
  rw [score_chunk, h]
  exact ⟨rfl, rfl⟩

theorem C6_returns_full_array_witness :
    lookupField quotesKey [(quotesKey, JsonVal.arr [JsonVal.num 1, JsonVal.num 2])]
        = some (JsonVal.arr [JsonVal.num 1, JsonVal.num 2]) ∧
      (score_chunk (.json (.obj
          [(quotesKey, JsonVal.arr [JsonVal.num 1, JsonVal.num 2])]))
        = some [JsonVal.num 1, JsonVal.num 2] ∧
      ((score_chunk (.json (.obj
          [(quotesKey, JsonVal.arr [JsonVal.num 1, JsonVal.num 2])]))).getD
        []).length = 2) :=
  ⟨rfl, C6_returns_full_array _ [JsonVal.num 1, JsonVal.num 2] rfl⟩

/-! Model of the two orchestrators (main.py `run_harvest`, app.py
`run_harvest`), downstream of article fetching. -/

/-- The fields of a fetched-article dict that the pipeline reads. -/
structure Article where
  title : Str
  url : Str
  published_at : Str
  raw_html : Str
deriving DecidableEq

/-- The fields of a scored candidate object that the orchestrators read
(`is_quote_worthy`, `punch_score`, `edited_line`); the remaining fields are
carried along by the dict merge but never read. -/
structure Candidate where
  is_quote_worthy : Bool
  punch_score : Int
  edited_line : Str
deriving DecidableEq

/-- MIN_PUNCH_SCORE from config.py. -/
def MIN_PUNCH_SCORE : Int := 3

/-- A retained quote record: article metadata merged with the candidate
(main.py lines 71-77, app.py lines 244-251). -/
structure QuoteRecord where
  source_title : Str
  source_url : Str
  published_at : Str
  cand : Candidate
deriving DecidableEq

/-- The `all_quotes` list built by main.py lines 46-82: for each article in
crawl order, for each chunk in order, the qualifying candidates in order.
`score` gives the scorer outcome per chunk text (`none` models the scorer
returning None, skipped by lines 60-61; the surrounding try/except of lines
57-82 catches nothing further since the scorer model is total). -/
def allQuotesMain (articles : List Article)
    (score : Str → Option (List Candidate)) : List QuoteRecord :=
  articles.flatMap fun a =>
    (clean_and_chunk a.raw_html 50 1000).flatMap fun chunk =>
      match score chunk with
      | none => []
      | some cands => cands.filterMap fun q =>
        if q.is_quote_worthy ∧ MIN_PUNCH_SCORE ≤ q.punch_score then
          some ⟨a.title, a.url, a.published_at, q⟩
        else none

/-- The `all_quotes` list built by app.py lines 205-252: as in main.py, but
an article with empty raw_html is skipped (lines 211-214), a falsy scorer
result (None or the empty list) is skipped (lines 223-225), and the
worthiness and score filters are separate continues (lines 237-242). -/
def allQuotesApp (articles : List Article)
    (score : Str → Option (List Candidate)) : List QuoteRecord :=
  articles.flatMap fun a =>
    if a.raw_html = [] then []
    else
      (clean_and_chunk a.raw_html 50 1000).flatMap fun chunk =>
        match score chunk with
        | none => []
        | some cands =>
          if cands = [] then []
          else cands.filterMap fun q =>
            if q.is_quote_worthy = false then none
            else if q.punch_score < MIN_PUNCH_SCORE then none
            else some ⟨a.title, a.url, a.published_at, q⟩

/-- First-wins deduplication with a key function: keep a record whose key is
non-empty and unseen, remembering the key.  With the raw `edited_line` as
key this is the loop of main.py lines 86-94 (`if edited_line and edited_line
not in seen_lines`); with the stripped `edited_line` it is the loop of
app.py lines 254-264 (`line = q.get("edited_line", "").strip()`, skip falsy,
skip seen). -/
def dedupByKey (key : QuoteRecord → Str) :
    List QuoteRecord → List Str → List QuoteRecord
  | [], _ => []
  | q :: qs, seen =>
    if key q ≠ [] ∧ key q ∉ seen then
      q :: dedupByKey key qs (key q :: seen)
    else dedupByKey key qs seen

/-- Model of main.py `run_harvest` downstream of article fetching (lines
46-98): build `all_quotes`, then deduplicate by the raw, untrimmed
`edited_line`. -/
def run_harvest_main (articles : List Article)
    (score : Str → Option (List Candidate)) : List QuoteRecord :=
  dedupByKey (fun q => q.cand.edited_line) (allQuotesMain articles score) []

/-- Model of app.py `run_harvest` downstream of article fetching (lines
202-266): build `all_quotes`, then deduplicate by the stripped
`edited_line`. -/
def run_harvest_app (articles : List Article)
    (score : Str → Option (List Candidate)) : List QuoteRecord :=
  dedupByKey (fun q => pyStrip q.cand.edited_line) (allQuotesApp articles score) []

/-- Invariants of the first-wins deduplication loop: the result is a
subsequence of the input; every retained record has a non-empty, fresh key
and is the first input record bearing its key; retained keys are pairwise
distinct. -/
theorem dedupByKey_props (key : QuoteRecord → Str) :
    ∀ (qs : List QuoteRecord) (seen : List Str),
      (dedupByKey key qs seen).Sublist qs ∧
      (∀ q ∈ dedupByKey key qs seen,
        key q ≠ [] ∧ key q ∉ seen ∧
        qs.find? (fun p => key p == key q) = some q) ∧
      (dedupByKey key qs seen).Pairwise (fun a b => key a ≠ key b) := by
  intro qs
  induction qs with
  | nil => intro seen; simp [dedupByKey]
  | cons q qs ih =>
    intro seen
    rw [dedupByKey]
    by_cases h : key q ≠ [] ∧ key q ∉ seen
    · rw [if_pos h]
      obtain ⟨ihS, ihM, ihP⟩ := ih (key q :: seen)
      refine ⟨ihS.cons₂ q, ?_, ?_⟩
      · intro x hx
        rcases List.mem_cons.mp hx with hx | hx
        · subst hx
          exact ⟨h.1, h.2, by
            rw [List.find?_cons_of_pos _ (by simp)]⟩
        · obtain ⟨h1, h2, h3⟩ := ihM x hx
          have hxq : key x ≠ key q := fun he => h2 (he ▸ List.mem_cons_self _ _)
          refine ⟨h1, fun hs => h2 (List.mem_cons_of_mem _ hs), ?_⟩
          have hstep : List.find? (fun p => key p == key x) (q :: qs)
              = List.find? (fun p => key p == key x) qs :=
            List.find?_cons_of_neg qs (by simpa using fun he => hxq he.symm)
          rw [hstep]
          exact h3
      · rw [List.pairwise_cons]
        refine ⟨?_, ihP⟩
        intro b hb
        obtain ⟨_, h2, _⟩ := ihM b hb
        exact fun he => h2 (he ▸ List.mem_cons_self _ _)
    · rw [if_neg h]
      obtain ⟨ihS, ihM, ihP⟩ := ih seen
      refine ⟨ihS.cons q, ?_, ihP⟩
      intro x hx
      obtain ⟨h1, h2, h3⟩ := ihM x hx
      refine ⟨h1, h2, ?_⟩
      have hq : ¬(key q == key x) = true := by
        simp only [beq_iff_eq]
        intro he
        exact h ⟨he ▸ h1, he ▸ h2⟩
      have hstep : List.find? (fun p => key p == key x) (q :: qs)
          = List.find? (fun p => key p == key x) qs :=
        List.find?_cons_of_neg qs hq
      rw [hstep]
      exact h3

/-- Concrete article whose raw text is a single 50-character paragraph, so
that `clean_and_chunk` (defaults 50 / 1000) yields exactly one chunk. -/
def cArticle : Article :=
  ⟨"t".toList, "u".toList, "d".toList, List.replicate 50 'x'⟩

/-- Scorer oracle returning two qualifying candidates whose edited lines
differ only in a trailing space. -/
def cScore : Str → Option (List Candidate) :=
  fun _ => some [⟨true, 5, "abc".toList⟩, ⟨true, 5, ("abc".toList ++ [' '])⟩]

/-- C1 counterexample: main.py's `run_harvest` deduplicates by the exact,
untrimmed `edited_line`, so a run whose scorer yields the lines "abc" and
"abc " retains two distinct records with equal trimmed canonical text,
refuting the claimed invariant for that orchestrator. -/
theorem C1_main_dedup_counterexample :
    ¬ (run_harvest_main [cArticle] cScore).Pairwise
        (fun a b => pyStrip a.cand.edited_line ≠ pyStrip b.cand.edited_line) := by
  decide

/-- C1 amended: app.py's `run_harvest` satisfies the claimed invariant (no
two retained records share a trimmed `edited_line`, each retained record is
the first of the run, in crawl then chunk then candidate order, bearing its
trimmed line, and trim-empty lines are dropped); main.py's `run_harvest`
instead deduplicates by the exact untrimmed `edited_line` — first exact
occurrence wins and only exactly-empty lines are dropped — so records whose
lines differ only in surrounding whitespace are all retained and
whitespace-only lines are kept. -/
theorem C1_dedup_amended (articles : List Article)
    (score : Str → Option (List Candidate)) :
    ((run_harvest_app articles score).Sublist (allQuotesApp articles score) ∧
      (run_harvest_app articles score).Pairwise
        (fun a b => pyStrip a.cand.edited_line ≠ pyStrip b.cand.edited_line) ∧
      (∀ q ∈ run_harvest_app articles score,
        pyStrip q.cand.edited_line ≠ [] ∧
        (allQuotesApp articles score).find?
            (fun p => pyStrip p.cand.edited_line == pyStrip q.cand.edited_line)
          = some q)) ∧
    ((run_harvest_main articles score).Sublist (allQuotesMain articles score) ∧
      (run_harvest_main articles score).Pairwise
        (fun a b => a.cand.edited_line ≠ b.cand.edited_line) ∧
      (∀ q ∈ run_harvest_main articles score,
        q.cand.edited_line ≠ [] ∧
        (allQuotesMain articles score).find?
            (fun p => p.cand.edited_line == q.cand.edited_line) = some q)) := by
  obtain ⟨hS, hM, hP⟩ := dedupByKey_props
    (fun q => pyStrip q.cand.edited_line) (allQuotesApp articles score) []
  obtain ⟨hS2, hM2, hP2⟩ := dedupByKey_props
    (fun q => q.cand.edited_line) (allQuotesMain articles score) []
  exact ⟨⟨hS, hP, fun q hq => ⟨(hM q hq).1, (hM q hq).2.2⟩⟩,
    ⟨hS2, hP2, fun q hq => ⟨(hM2 q hq).1, (hM2 q hq).2.2⟩⟩⟩

/-- Record retained by the app.py orchestrator in the concrete run used for
the C1 witness. -/
def cRecord : QuoteRecord :=
  ⟨"t".toList, "u".toList, "d".toList, ⟨true, 5, "abc".toList⟩⟩

theorem C1_dedup_amended_witness :
    cRecord ∈ run_harvest_app [cArticle] cScore ∧
      (pyStrip cRecord.cand.edited_line ≠ [] ∧
        (allQuotesApp [cArticle] cScore).find?
            (fun p => pyStrip p.cand.edited_line
              == pyStrip cRecord.cand.edited_line)
          = some cRecord) :=
  ⟨by decide, (C1_dedup_amended [cArticle] cScore).1.2.2 cRecord (by decide)⟩

/-! Model of fetcher.py (the crawler variants). -/

/-- Python `s.startswith(pre)`: `isStartOf pre s`. -/
def isStartOf : Str → Str → Bool
  | [], _ => true
  | _ :: _, [] => false
  | a :: as, b :: bs => a = b && isStartOf as bs

/-- Python `sub in s`: substring containment. -/
def hasSub (needle : Str) : Str → Bool
  | [] => isStartOf needle []
  | c :: t => isStartOf needle (c :: t) || hasSub needle t

/-- Outcome of the HTTP GET for a listing page in `fetch_paginated_posts`
(fetcher.py lines 494-501): a 404, a raised error (RequestException or a
processing exception, both of which break the loop, lines 562-567), or a
parsed page giving the href attributes of its anchors in document order (the
BeautifulSoup extraction itself is external). -/
inductive PageResult where
  | notFound
  | fetchError
  | ok (hrefs : List Str)

/-- Outcome of a `fetch_article` call as seen by a calling loop that wraps
it in `except Exception`: `ok a` is a returned article dict (including the
"Error" placeholder built when the underlying request raises
RequestException, fetcher.py lines 158-165); `exn` is any other exception,
which propagates out of `fetch_article`. -/
inductive ArticleResult where
  | ok (a : Article)
  | exn

/-- Site base URL prepended to root-relative hrefs (fetcher.py line 513). -/
def siteUrl : Str := "https://www.marcusbpeter.com".toList

/-- Domain filter applied to normalized URLs (fetcher.py line 519). -/
def siteDomain : Str := "marcusbpeter.com".toList

/-- Href-to-URL normalization of fetcher.py lines 510-517: keep hrefs
containing one of the article path markers, make root-relative ones
absolute, keep absolute http(s) ones, drop the rest. -/
def normalizeHref (href : Str) : Option Str :=
  if hasSub "/t/".toList href || hasSub "/posts/".toList href
      || hasSub "/p/".toList href then
    if isStartOf "/".toList href then some (siteUrl ++ href)
    else if isStartOf "http".toList href then some href
    else none
  else none

/-- The link-collection loop over a page's anchors (fetcher.py lines
507-521): keep each normalized URL on the site domain that is not yet in
`seen_urls`, adding it to `seen_urls` immediately.  Returns the new links in
page order and the updated seen set. -/
def collectLinks : List Str → List Str → List Str × List Str
  | [], seen => ([], seen)
  | h :: hs, seen =>
    match normalizeHref h with
    | none => collectLinks hs seen
    | some u =>
      if hasSub siteDomain u ∧ u ∉ seen then
        let rest := collectLinks hs (u :: seen)
        (u :: rest.1, rest.2)
      else collectLinks hs seen

/-- Python `if limit and len(articles) >= limit`: `limit` is tested for
truthiness (None and 0 are falsy) before the comparison. -/
def limitReached (limit : Option Int) (n : Nat) : Bool :=
  match limit with
  | none => false
  | some k => decide (k ≠ 0) && decide (k ≤ (n : Int))

/-- Python `l[:k]` for an integer `k`: a nonnegative bound keeps the first
`k` elements, a negative bound drops the last `|k|`. -/
def pySliceTo {α : Type} (k : Int) (l : List α) : List α :=
  if 0 ≤ k then l.take k.toNat else l.take (l.length - (-k).toNat)

/-- The `if limit: article_urls = article_urls[:limit]` step of
`fetch_articles` (fetcher.py lines 172-173), applied only when `limit` is
truthy. -/
def applyLimit {α : Type} (limit : Option Int) (l : List α) : List α :=
  match limit with
  | none => l
  | some k => if k ≠ 0 then pySliceTo k l else l

/-- State of the pagination crawl.  `articles` and `seen` mirror
`all_articles` and `seen_urls`; `fetched` records the article URLs passed to
`fetch_article` (the fetch trace) and `pages` counts listing-page HTTP
requests — both are observers of the run used to state the claims. -/
structure PgState where
  articles : List Article
  seen : List Str
  fetched : List Str
  pages : Nat
deriving DecidableEq

/-- The per-page article loop of `fetch_paginated_posts` (fetcher.py lines
531-558): fetch each collected link, apply the date filter `keep` (the
`since` comparison of lines 537-546), append, and return early once the
limit is reached (lines 552-554); any exception from the body is caught and
the loop continues (lines 556-558).  The Bool of the result signals the
early `return`. -/
def processLinks (fetchA : Str → ArticleResult) (keep : Article → Bool)
    (limit : Option Int) : List Str → PgState → PgState × Bool
  | [], st => (st, false)
  | u :: us, st =>
    let st1 : PgState := { st with fetched := st.fetched ++ [u] }
    match fetchA u with
    | .exn => processLinks fetchA keep limit us st1
    | .ok a =>
      if keep a then
        let st2 : PgState := { st1 with articles := st1.articles ++ [a] }
        if limitReached limit st2.articles.length then (st2, true)
        else processLinks fetchA keep limit us st2
      else processLinks fetchA keep limit us st1

/-- MAX_PAGES from fetcher.py line 475. -/
def MAX_PAGES : Nat := 200

/-- The pagination loop of `fetch_paginated_posts` (fetcher.py lines
484-567).  `fuel` is the number of remaining iterations of
`while current_page <= MAX_PAGES`; since `current_page` increases by exactly
one per iteration and is never decreased, the fuel rendering is exact.
`env` gives the outcome of the listing-page request by page number (the page
URL is a function of the page number, lines 486-489). -/
def pagGo (env : Nat → PageResult) (fetchA : Str → ArticleResult)
    (keep : Article → Bool) (limit : Option Int) :
    Nat → Nat → PgState → PgState
  | 0, _, st => st
  | fuel + 1, pageNo, st =>
    let st1 : PgState := { st with pages := st.pages + 1 }
    match env pageNo with
    | .notFound => st1
    | .fetchError => st1
    | .ok hrefs =>
      let cl := collectLinks hrefs st1.seen
      let st2 : PgState := { st1 with seen := cl.2 }
      if cl.1 = [] then st2
      else
        let pr := processLinks fetchA keep limit cl.1 st2
        if pr.2 then pr.1
        else pagGo env fetchA keep limit fuel (pageNo + 1) pr.1

/-- Model of `fetch_paginated_posts` (fetcher.py lines 463-570): crawl from
page 1 with empty state. -/
def fetch_paginated_posts (env : Nat → PageResult)
    (fetchA : Str → ArticleResult) (keep : Article → Bool)
    (limit : Option Int) : PgState :=
  pagGo env fetchA keep limit MAX_PAGES 1 ⟨[], [], [], 0⟩

/-- The per-item loop of `fetch_wordpress_rss` (fetcher.py lines 684-739):
the XML parse producing title, url, date and content per item is external,
so items arrive as article dicts; `keep` is the `since` date filter (lines
711-719); a truthy limit breaks after the append (lines 738-739). -/
def wpGo (keep : Article → Bool) (limit : Option Int) :
    List Article → List Article → List Article
  | [], acc => acc
  | it :: its, acc =>
    if keep it then
      if limitReached limit (acc ++ [it]).length then acc ++ [it]
      else wpGo keep limit its (acc ++ [it])
    else wpGo keep limit its acc

/-- Model of `fetch_wordpress_rss` (fetcher.py lines 662-749); the
structurally identical `fetch_substack_articles` (lines 196-278) is covered
by the same model.  A top-level feed failure returns the empty list (lines
744-749). -/
def fetch_wordpress_rss (feed : Except Unit (List Article))
    (keep : Article → Bool) (limit : Option Int) : List Article :=
  match feed with
  | .error _ => []
  | .ok items => wpGo keep limit items []

/-- An item of Dr. Ray's RSS feed as read by `fetch_ray_articles`: the link
text, the published date derived from pubDate (fetcher.py lines 613-622),
and whether a pubDate element was present. -/
structure RayItem where
  url : Str
  published_at : Str
  hasPub : Bool

/-- The per-item loop of `fetch_ray_articles` (fetcher.py lines 606-652):
skip items with an empty URL (lines 610-611), date-filter on the RSS date
(lines 624-632), fetch the full article with exceptions caught per article
(lines 635-652), override its date with the RSS one when present (lines
640-641), and stop after a truthy limit is reached (lines 647-648). -/
def rayAdjust (it : RayItem) (a : Article) : Article :=
  if it.hasPub then { a with published_at := it.published_at } else a

def rayGo (fetchA : Str → ArticleResult) (keep : Str → Bool)
    (limit : Option Int) : List RayItem → List Article → List Article
  | [], acc => acc
  | it :: its, acc =>
    if it.url = [] then rayGo fetchA keep limit its acc
    else if keep it.published_at = false then rayGo fetchA keep limit its acc
    else
      match fetchA it.url with
      | .exn => rayGo fetchA keep limit its acc
      | .ok a =>
        if limitReached limit (acc ++ [rayAdjust it a]).length then
          acc ++ [rayAdjust it a]
        else rayGo fetchA keep limit its (acc ++ [rayAdjust it a])

/-- Model of `fetch_ray_articles` (fetcher.py lines 586-659): a top-level
feed failure returns the empty list (lines 657-659). -/
def fetch_ray_articles (feed : Except Unit (List RayItem))
    (fetchA : Str → ArticleResult) (keep : Str → Bool)
    (limit : Option Int) : List Article :=
  match feed with
  | .error _ => []
  | .ok items => rayGo fetchA keep limit items []

/-- Per-URL outcome of the HTTP fetch inside `fetch_article`: a parsed
article page, a raised requests.RequestException, or any other
exception. -/
inductive FetchOutcome where
  | ok (a : Article)
  | requestExc
  | otherExc

/-- Model of `fetch_article` (fetcher.py lines 56-165): the title / date /
content extraction from a successful response is the external parse carried
by `ok a`; a RequestException is caught and turned into the "Error"
placeholder article with today's date and empty raw_html (lines 158-165);
any other exception propagates. -/
def fetch_article (env : Str → FetchOutcome) (today : Str) (url : Str) :
    Except Unit Article :=
  match env url with
  | .ok a => .ok a
  | .requestExc => .ok ⟨"Error".toList, url, today, []⟩
  | .otherExc => .error ()

/-- The article loop of `fetch_articles` (fetcher.py lines 175-191) as an
Except computation: the loop body has no try/except, so an exception from
`fetch_article` aborts the whole crawl; `keep` is the `since` filter of
lines 179-188. -/
def fetchArticlesGo (env : Str → FetchOutcome) (keep : Article → Bool)
    (today : Str) : List Str → List Article → Except Unit (List Article)
  | [], acc => .ok acc
  | u :: us, acc =>
    match fetch_article env today u with
    | .error e => .error e
    | .ok a =>
      if keep a then fetchArticlesGo env keep today us (acc ++ [a])
      else fetchArticlesGo env keep today us acc

/-- Model of `fetch_articles` (fetcher.py lines 168-193): `urls` is the link
list returned by `get_article_links`, truncated by a truthy limit before any
fetching. -/
def fetch_articles (urls : List Str) (env : Str → FetchOutcome)
    (keep : Article → Bool) (limit : Option Int) (today : Str) :
    Except Unit (List Article) :=
  fetchArticlesGo env keep today (applyLimit limit urls) []

/-- Title and body of a successfully fetched page in `fetch_single_url` (the
BeautifulSoup parse is external): the optional title-tag text and the raw
HTML. -/
structure SinglePage where
  title : Option Str
  html : Str

/-- Model of `fetch_single_url` (fetcher.py lines 752-783): the first
request attempt (browser headers) is wrapped in a bare `except`, but the
fallback request and its `raise_for_status()` are not, so a failure of the
fallback propagates to the caller. -/
def fetch_single_url (tryBrowser tryBasic : Except Unit SinglePage)
    (today url : Str) : Except Unit (List Article) :=
  match tryBrowser with
  | .ok p => .ok [⟨p.title.getD url, url, today, p.html⟩]
  | .error _ =>
    match tryBasic with
    | .ok p => .ok [⟨p.title.getD url, url, today, p.html⟩]
    | .error e => .error e

/-- Invariants of the link-collection loop: the collected links are distinct,
none was already seen, and the updated seen set is exactly the old one plus
the collected links. -/
theorem collectLinks_props : ∀ (hs seen : List Str),
    (collectLinks hs seen).1.Nodup ∧
    (∀ u ∈ (collectLinks hs seen).1, u ∉ seen) ∧
    (∀ u, u ∈ (collectLinks hs seen).2 ↔ u ∈ seen ∨ u ∈ (collectLinks hs seen).1) := by
  intro hs
  induction hs with
  | nil => intro seen; simp [collectLinks]
  | cons h hs ih =>
    intro seen
    cases hn : normalizeHref h with
    | none =>
      have heq : collectLinks (h :: hs) seen = collectLinks hs seen := by
        simp only [collectLinks, hn]
      rw [heq]
      exact ih seen
    | some u =>
      by_cases hc : hasSub siteDomain u ∧ u ∉ seen
      · have heq : collectLinks (h :: hs) seen
            = (u :: (collectLinks hs (u :: seen)).1,
               (collectLinks hs (u :: seen)).2) := by
          simp only [collectLinks, hn, if_pos hc]
        rw [heq]
        obtain ⟨ih1, ih2, ih3⟩ := ih (u :: seen)
        refine ⟨?_, ?_, ?_⟩
        · exact List.nodup_cons.mpr
            ⟨fun hu => (ih2 u hu) (List.mem_cons_self _ _), ih1⟩
        · intro x hx
          rcases List.mem_cons.mp hx with rfl | hx
          · exact hc.2
          · exact fun hs' => ih2 x hx (List.mem_cons_of_mem _ hs')
        · intro x
          rw [ih3 x]
          constructor
          · rintro (hx | hx)
            · rcases List.mem_cons.mp hx with rfl | hx
              · exact Or.inr (List.mem_cons_self _ _)
              · exact Or.inl hx
            · exact Or.inr (List.mem_cons_of_mem _ hx)
          · rintro (hx | hx)
            · exact Or.inl (List.mem_cons_of_mem _ hx)
            · rcases List.mem_cons.mp hx with rfl | hx
              · exact Or.inl (List.mem_cons_self _ _)
              · exact Or.inr hx
      · have heq : collectLinks (h :: hs) seen = collectLinks hs seen := by
          simp only [collectLinks, hn, if_neg hc]
        rw [heq]
        exact ih seen

theorem isPre_cons {α : Type} (a : α) {l₁ l₂ : List α} (h : l₁ <+: l₂) :
    a :: l₁ <+: a :: l₂ := by
  obtain ⟨r, hr⟩ := h
  exact ⟨r, by rw [List.cons_append, hr]⟩

theorem processLinks_exn_eq (fA : Str → ArticleResult) (keep : Article → Bool)
    (limit : Option Int) (u : Str) (us : List Str) (st : PgState)
    (ha : fA u = .exn) :
    processLinks fA keep limit (u :: us) st
      = processLinks fA keep limit us { st with fetched := st.fetched ++ [u] } := by
  rw [processLinks, ha]

theorem processLinks_ok_eq (fA : Str → ArticleResult) (keep : Article → Bool)
    (limit : Option Int) (u : Str) (us : List Str) (st : PgState) (a : Article)
    (ha : fA u = .ok a) :
    processLinks fA keep limit (u :: us) st
      = (if keep a then
          (if limitReached limit (st.articles ++ [a]).length then
            ({ st with fetched := st.fetched ++ [u],
                       articles := st.articles ++ [a] }, true)
          else processLinks fA keep limit us
            { st with fetched := st.fetched ++ [u],
                      articles := st.articles ++ [a] })
        else processLinks fA keep limit us
          { st with fetched := st.fetched ++ [u] }) := by
  rw [processLinks, ha]

/-- The per-page loop does not touch `seen` or `pages`, extends the fetch
trace by a prefix of the links it was given, and only appends articles. -/
theorem processLinks_spec (fA : Str → ArticleResult) (keep : Article → Bool)
    (limit : Option Int) : ∀ (us : List Str) (st : PgState),
    (processLinks fA keep limit us st).1.seen = st.seen ∧
    (processLinks fA keep limit us st).1.pages = st.pages ∧
    (∃ t, t <+: us ∧
      (processLinks fA keep limit us st).1.fetched = st.fetched ++ t) ∧
    (∃ as, (processLinks fA keep limit us st).1.articles
      = st.articles ++ as) := by
  intro us
  induction us with
  | nil =>
    intro st
    exact ⟨rfl, rfl, ⟨[], ⟨[], rfl⟩, by simp [processLinks]⟩,
      ⟨[], by simp [processLinks]⟩⟩
  | cons u us ih =>
    intro st
    cases ha : fA u with
    | exn =>
      rw [processLinks_exn_eq fA keep limit u us st ha]
      obtain ⟨h1, h2, ⟨t, ht, h3⟩, ⟨as, h4⟩⟩ :=
        ih { st with fetched := st.fetched ++ [u] }
      refine ⟨h1, h2, ⟨u :: t, isPre_cons u ht, ?_⟩, ⟨as, h4⟩⟩
      rw [h3]
      simp
    | ok a =>
      rw [processLinks_ok_eq fA keep limit u us st a ha]
      by_cases hk : keep a
      · rw [if_pos hk]
        by_cases hl : limitReached limit (st.articles ++ [a]).length
        · rw [if_pos hl]
          exact ⟨rfl, rfl, ⟨[u], ⟨us, rfl⟩, rfl⟩, ⟨[a], rfl⟩⟩
        · rw [if_neg hl]
          obtain ⟨h1, h2, ⟨t, ht, h3⟩, ⟨as, h4⟩⟩ :=
            ih { st with fetched := st.fetched ++ [u],
                         articles := st.articles ++ [a] }
          refine ⟨h1, h2, ⟨u :: t, isPre_cons u ht, ?_⟩, ⟨a :: as, ?_⟩⟩
          · rw [h3]
            simp
          · rw [h4]
            simp
      · rw [if_neg hk]
        obtain ⟨h1, h2, ⟨t, ht, h3⟩, ⟨as, h4⟩⟩ :=
          ih { st with fetched := st.fetched ++ [u] }
        refine ⟨h1, h2, ⟨u :: t, isPre_cons u ht, ?_⟩, ⟨as, h4⟩⟩
        rw [h3]
        simp

theorem pagGo_notFound_eq (env : Nat → PageResult) (fA : Str → ArticleResult)
    (keep : Article → Bool) (limit : Option Int) (fuel pageNo : Nat)
    (st : PgState) (he : env pageNo = .notFound) :
    pagGo env fA keep limit (fuel + 1) pageNo st
      = { st with pages := st.pages + 1 } := by
  rw [pagGo, he]

theorem pagGo_error_eq (env : Nat → PageResult) (fA : Str → ArticleResult)
    (keep : Article → Bool) (limit : Option Int) (fuel pageNo : Nat)
    (st : PgState) (he : env pageNo = .fetchError) :
    pagGo env fA keep limit (fuel + 1) pageNo st
      = { st with pages := st.pages + 1 } := by
  rw [pagGo, he]

theorem pagGo_ok_eq (env : Nat → PageResult) (fA : Str → ArticleResult)
    (keep : Article → Bool) (limit : Option Int) (fuel pageNo : Nat)
    (st : PgState) (hrefs : List Str) (he : env pageNo = .ok hrefs) :
    pagGo env fA keep limit (fuel + 1) pageNo st
      = (if (collectLinks hrefs st.seen).1 = [] then
          { st with pages := st.pages + 1,
                    seen := (collectLinks hrefs st.seen).2 }
        else if (processLinks fA keep limit (collectLinks hrefs st.seen).1
            { st with pages := st.pages + 1,
                      seen := (collectLinks hrefs st.seen).2 }).2 then
          (processLinks fA keep limit (collectLinks hrefs st.seen).1
            { st with pages := st.pages + 1,
                      seen := (collectLinks hrefs st.seen).2 }).1
        else pagGo env fA keep limit fuel (pageNo + 1)
          (processLinks fA keep limit (collectLinks hrefs st.seen).1
            { st with pages := st.pages + 1,
                      seen := (collectLinks hrefs st.seen).2 }).1) := by
  rw [pagGo, he]

/-- Main invariant of the pagination loop: the fetch trace stays
duplicate-free (every fetched URL is in the seen set, and new links avoid
the seen set), and each iteration performs exactly one listing-page
request. -/
theorem pagGo_invariant (env : Nat → PageResult) (fA : Str → ArticleResult)
    (keep : Article → Bool) (limit : Option Int) :
    ∀ (fuel pageNo : Nat) (st : PgState),
      st.fetched.Nodup → (∀ u ∈ st.fetched, u ∈ st.seen) →
      (pagGo env fA keep limit fuel pageNo st).fetched.Nodup ∧
      (pagGo env fA keep limit fuel pageNo st).pages ≤ st.pages + fuel := by
  intro fuel
  induction fuel with
  | zero =>
    intro pageNo st h1 _
    exact ⟨h1, Nat.le_add_right _ _⟩
  | succ fuel ih =>
    intro pageNo st h1 h2
    cases he : env pageNo with
    | notFound =>
      rw [pagGo_notFound_eq env fA keep limit fuel pageNo st he]
      exact ⟨h1, by dsimp only; omega⟩
    | fetchError =>
      rw [pagGo_error_eq env fA keep limit fuel pageNo st he]
      exact ⟨h1, by dsimp only; omega⟩
    | ok hrefs =>
      rw [pagGo_ok_eq env fA keep limit fuel pageNo st hrefs he]
      obtain ⟨hcN, hcF, hcS⟩ := collectLinks_props hrefs st.seen
      by_cases hnil : (collectLinks hrefs st.seen).1 = []
      · rw [if_pos hnil]
        exact ⟨h1, by dsimp only; omega⟩
      · rw [if_neg hnil]
        obtain ⟨hs1, hs2, ⟨t, ht, hf⟩, _⟩ := processLinks_spec fA keep limit
          (collectLinks hrefs st.seen).1
          { st with pages := st.pages + 1,
                    seen := (collectLinks hrefs st.seen).2 }
        have htsub : ∀ x ∈ t, x ∈ (collectLinks hrefs st.seen).1 :=
          fun x hx => ht.sublist.mem hx
        have hnodup : (processLinks fA keep limit (collectLinks hrefs st.seen).1
            { st with pages := st.pages + 1,
                      seen := (collectLinks hrefs st.seen).2 }).1.fetched.Nodup := by
          rw [hf]
          refine List.Nodup.append h1 (ht.sublist.nodup hcN) ?_
          intro x hx hxt
          exact hcF x (htsub x hxt) (h2 x hx)
        have hseenOK : ∀ u ∈ (processLinks fA keep limit
            (collectLinks hrefs st.seen).1
            { st with pages := st.pages + 1,
                      seen := (collectLinks hrefs st.seen).2 }).1.fetched,
            u ∈ (processLinks fA keep limit (collectLinks hrefs st.seen).1
            { st with pages := st.pages + 1,
                      seen := (collectLinks hrefs st.seen).2 }).1.seen := by
          intro u hu
          rw [hf] at hu
          rw [hs1]
          rcases List.mem_append.mp hu with hu | hu
          · exact (hcS u).mpr (Or.inl (h2 u hu))
          · exact (hcS u).mpr (Or.inr (htsub u hu))
        by_cases hearly : (processLinks fA keep limit
            (collectLinks hrefs st.seen).1
            { st with pages := st.pages + 1,
                      seen := (collectLinks hrefs st.seen).2 }).2 = true
        · rw [if_pos hearly]
          refine ⟨hnodup, ?_⟩
          rw [hs2]
          dsimp only
          omega
        · rw [if_neg hearly]
          obtain ⟨r1, r2⟩ := ih (pageNo + 1) _ hnodup hseenOK
          refine ⟨r1, ?_⟩
          rw [hs2] at r2
          dsimp only at r2
          omega

/-- C4: the pagination crawler never passes the same article URL to
`fetch_article` twice within one run (the fetch trace is duplicate-free), it
performs at most MAX_PAGES = 200 listing-page requests for every environment
— so it terminates even if every listing page endlessly repeats the same
links — and it stops at any page that returns 404 or whose links are all
already in the run's seen set. -/
theorem C4_paginated_crawler (env : Nat → PageResult)
    (fetchA : Str → ArticleResult) (keep : Article → Bool)
    (limit : Option Int) :
    (fetch_paginated_posts env fetchA keep limit).fetched.Nodup ∧
    (fetch_paginated_posts env fetchA keep limit).pages ≤ MAX_PAGES ∧
    (∀ fuel pageNo st, env pageNo = .notFound →
      pagGo env fetchA keep limit (fuel + 1) pageNo st
        = { st with pages := st.pages + 1 }) ∧
    (∀ fuel pageNo st hrefs, env pageNo = .ok hrefs →
      (collectLinks hrefs st.seen).1 = [] →
      pagGo env fetchA keep limit (fuel + 1) pageNo st
        = { st with pages := st.pages + 1,
                    seen := (collectLinks hrefs st.seen).2 }) := by
  obtain ⟨h1, h2⟩ := pagGo_invariant env fetchA keep limit MAX_PAGES 1
    ⟨[], [], [], 0⟩ (by simp) (by simp)
  refine ⟨h1, by simpa using h2, ?_, ?_⟩
  · intro fuel pageNo st he
    exact pagGo_notFound_eq env fetchA keep limit fuel pageNo st he
  · intro fuel pageNo st hrefs he hnil
    rw [pagGo_ok_eq env fetchA keep limit fuel pageNo st hrefs he, if_pos hnil]

theorem C4_paginated_crawler_witness :
    (fun _ => PageResult.notFound) 1 = PageResult.notFound ∧
      pagGo (fun _ => PageResult.notFound) (fun _ => ArticleResult.exn)
          (fun _ => true) none (0 + 1) 1 ⟨[], [], [], 0⟩
        = { (⟨[], [], [], 0⟩ : PgState) with pages := (0 : Nat) + 1 } :=
  ⟨rfl, (C4_paginated_crawler (fun _ => PageResult.notFound)
    (fun _ => ArticleResult.exn) (fun _ => true) none).2.2.1 0 1
    ⟨[], [], [], 0⟩ rfl⟩

/-! Limit semantics (claims C5 and C10). -/

theorem limitReached_none (n : Nat) : limitReached none n = false := rfl

theorem limitReached_zero (n : Nat) :
    limitReached (some 0) n = limitReached none n := by
  simp [limitReached]

theorem wpGo_none_monotone (keep : Article → Bool) :
    ∀ (its acc : List Article), ∃ t, wpGo keep none its acc = acc ++ t := by
  intro its
  induction its with
  | nil => intro acc; exact ⟨[], by simp [wpGo]⟩
  | cons it its ih =>
    intro acc
    rw [wpGo]
    by_cases hkp : keep it
    · rw [if_pos hkp, limitReached_none, if_neg (by simp)]
      obtain ⟨t, ht⟩ := ih (acc ++ [it])
      exact ⟨it :: t, by rw [ht]; simp⟩
    · rw [if_neg hkp]
      exact ih acc

theorem wpGo_limit (keep : Article → Bool) (k : Int) (hk : 1 ≤ k) :
    ∀ (its acc : List Article), (acc.length : Int) < k →
      ((wpGo keep (some k) its acc).length : Int) ≤ k ∧
      wpGo keep (some k) its acc <+: wpGo keep none its acc := by
  intro its
  induction its with
  | nil =>
    intro acc hlt
    exact ⟨le_of_lt hlt, List.prefix_rfl⟩
  | cons it its ih =>
    intro acc hlt
    by_cases hkp : keep it
    · rw [wpGo, if_pos hkp, wpGo, if_pos hkp]
      have hnone : (if limitReached none (acc ++ [it]).length = true then
            acc ++ [it]
          else wpGo keep none its (acc ++ [it]))
          = wpGo keep none its (acc ++ [it]) := by
        rw [limitReached_none]
        simp
      rw [hnone]
      by_cases hl : k ≤ ((acc ++ [it]).length : Int)
      · have hcond : limitReached (some k) (acc ++ [it]).length = true := by
          simp only [limitReached, Bool.and_eq_true, decide_eq_true_eq]
          exact ⟨by omega, hl⟩
        rw [if_pos hcond]
        have hlen : (((acc ++ [it]).length : Nat) : Int) = k := by
          simp only [List.length_append, List.length_cons, List.length_nil] at hl ⊢
          push_cast at hl ⊢
          omega
        refine ⟨le_of_eq hlen, ?_⟩
        obtain ⟨t, ht⟩ := wpGo_none_monotone keep its (acc ++ [it])
        exact ⟨t, ht.symm⟩
      · have hcond : limitReached (some k) (acc ++ [it]).length = false := by
          simp only [limitReached, Bool.and_eq_false_iff, decide_eq_false_iff_not]
          right
          exact hl
        rw [hcond, if_neg (by simp)]
        refine ih (acc ++ [it]) ?_
        simp only [List.length_append, List.length_cons, List.length_nil] at hl ⊢
        push_cast at hl ⊢
        omega
    · rw [wpGo, if_neg hkp, wpGo, if_neg hkp]
      exact ih acc hlt

theorem rayGo_skip_url (fA : Str → ArticleResult) (keep : Str → Bool)
    (limit : Option Int) (it : RayItem) (its : List RayItem)
    (acc : List Article) (h : it.url = []) :
    rayGo fA keep limit (it :: its) acc = rayGo fA keep limit its acc := by
  rw [rayGo, if_pos h]

theorem rayGo_skip_keep (fA : Str → ArticleResult) (keep : Str → Bool)
    (limit : Option Int) (it : RayItem) (its : List RayItem)
    (acc : List Article) (h1 : ¬it.url = [])
    (h2 : keep it.published_at = false) :
    rayGo fA keep limit (it :: its) acc = rayGo fA keep limit its acc := by
  rw [rayGo, if_neg h1, if_pos h2]

theorem rayGo_skip_exn (fA : Str → ArticleResult) (keep : Str → Bool)
    (limit : Option Int) (it : RayItem) (its : List RayItem)
    (acc : List Article) (h1 : ¬it.url = [])
    (h2 : ¬keep it.published_at = false) (h3 : fA it.url = .exn) :
    rayGo fA keep limit (it :: its) acc = rayGo fA keep limit its acc := by
  rw [rayGo, if_neg h1, if_neg h2, h3]

theorem rayGo_ok_eq (fA : Str → ArticleResult) (keep : Str → Bool)
    (limit : Option Int) (it : RayItem) (its : List RayItem)
    (acc : List Article) (a : Article) (h1 : ¬it.url = [])
    (h2 : ¬keep it.published_at = false) (h3 : fA it.url = .ok a) :
    rayGo fA keep limit (it :: its) acc
      = (if limitReached limit (acc ++ [rayAdjust it a]).length then
          acc ++ [rayAdjust it a]
        else rayGo fA keep limit its (acc ++ [rayAdjust it a])) := by
  rw [rayGo, if_neg h1, if_neg h2, h3]

theorem rayGo_none_monotone (fA : Str → ArticleResult) (keep : Str → Bool) :
    ∀ (its : List RayItem) (acc : List Article),
      ∃ t, rayGo fA keep none its acc = acc ++ t := by
  intro its
  induction its with
  | nil => intro acc; exact ⟨[], by simp [rayGo]⟩
  | cons it its ih =>
    intro acc
    by_cases h1 : it.url = []
    · rw [rayGo_skip_url fA keep none it its acc h1]
      exact ih acc
    by_cases h2 : keep it.published_at = false
    · rw [rayGo_skip_keep fA keep none it its acc h1 h2]
      exact ih acc
    cases h3 : fA it.url with
    | exn =>
      rw [rayGo_skip_exn fA keep none it its acc h1 h2 h3]
      exact ih acc
    | ok a =>
      rw [rayGo_ok_eq fA keep none it its acc a h1 h2 h3, limitReached_none,
        if_neg (by simp)]
      obtain ⟨t, ht⟩ := ih (acc ++ [rayAdjust it a])
      exact ⟨rayAdjust it a :: t, by rw [ht]; simp⟩

theorem rayGo_limit (fA : Str → ArticleResult) (keep : Str → Bool) (k : Int)
    (hk : 1 ≤ k) :
    ∀ (its : List RayItem) (acc : List Article), (acc.length : Int) < k →
      ((rayGo fA keep (some k) its acc).length : Int) ≤ k ∧
      rayGo fA keep (some k) its acc <+: rayGo fA keep none its acc := by
  intro its
  induction its with
  | nil =>
    intro acc hlt
    exact ⟨le_of_lt hlt, List.prefix_rfl⟩
  | cons it its ih =>
    intro acc hlt
    by_cases h1 : it.url = []
    · rw [rayGo_skip_url fA keep (some k) it its acc h1,
        rayGo_skip_url fA keep none it its acc h1]
      exact ih acc hlt
    by_cases h2 : keep it.published_at = false
    · rw [rayGo_skip_keep fA keep (some k) it its acc h1 h2,
        rayGo_skip_keep fA keep none it its acc h1 h2]
      exact ih acc hlt
    cases h3 : fA it.url with
    | exn =>
      rw [rayGo_skip_exn fA keep (some k) it its acc h1 h2 h3,
        rayGo_skip_exn fA keep none it its acc h1 h2 h3]
      exact ih acc hlt
    | ok a =>
      rw [rayGo_ok_eq fA keep (some k) it its acc a h1 h2 h3,
        rayGo_ok_eq fA keep none it its acc a h1 h2 h3]
      have hnone : (if limitReached none (acc ++ [rayAdjust it a]).length then
            acc ++ [rayAdjust it a]
          else rayGo fA keep none its (acc ++ [rayAdjust it a]))
          = rayGo fA keep none its (acc ++ [rayAdjust it a]) := by
        rw [limitReached_none]
        simp
      rw [hnone]
      by_cases hl : k ≤ ((acc ++ [rayAdjust it a]).length : Int)
      · have hcond : limitReached (some k)
            (acc ++ [rayAdjust it a]).length = true := by
          simp only [limitReached, Bool.and_eq_true, decide_eq_true_eq]
          exact ⟨by omega, hl⟩
        rw [if_pos hcond]
        have hlen : (((acc ++ [rayAdjust it a]).length : Nat) : Int) = k := by
          simp only [List.length_append, List.length_cons, List.length_nil]
            at hl ⊢
          push_cast at hl ⊢
          omega
        refine ⟨le_of_eq hlen, ?_⟩
        obtain ⟨t, ht⟩ := rayGo_none_monotone fA keep its (acc ++ [rayAdjust it a])
        exact ⟨t, ht.symm⟩
      · have hcond : limitReached (some k)
            (acc ++ [rayAdjust it a]).length = false := by
          simp only [limitReached, Bool.and_eq_false_iff,
            decide_eq_false_iff_not]
          right
          exact hl
        rw [hcond, if_neg (by simp)]
        refine ih (acc ++ [rayAdjust it a]) ?_
        simp only [List.length_append, List.length_cons, List.length_nil]
          at hl ⊢
        push_cast at hl ⊢
        omega

theorem processLinks_none_no_early (fA : Str → ArticleResult)
    (keep : Article → Bool) :
    ∀ (us : List Str) (st : PgState),
      (processLinks fA keep none us st).2 = false := by
  intro us
  induction us with
  | nil => intro st; rfl
  | cons u us ih =>
    intro st
    cases ha : fA u with
    | exn =>
      rw [processLinks_exn_eq fA keep none u us st ha]
      exact ih _
    | ok a =>
      rw [processLinks_ok_eq fA keep none u us st a ha]
      by_cases hkp : keep a
      · rw [if_pos hkp, limitReached_none, if_neg (by simp)]
        exact ih _
      · rw [if_neg hkp]
        exact ih _

/-- Simulation between the limited and unlimited per-page loops: while the
limit has not fired the two runs coincide, and when it fires the limited run
holds exactly `k` articles which the unlimited run extends. -/
theorem processLinks_limit_sim (fA : Str → ArticleResult)
    (keep : Article → Bool) (k : Int) (hk : 1 ≤ k) :
    ∀ (us : List Str) (st : PgState), (st.articles.length : Int) < k →
      ((processLinks fA keep (some k) us st).2 = false →
        processLinks fA keep (some k) us st
          = processLinks fA keep none us st ∧
        ((processLinks fA keep (some k) us st).1.articles.length : Int) < k) ∧
      ((processLinks fA keep (some k) us st).2 = true →
        ((processLinks fA keep (some k) us st).1.articles.length : Int) = k ∧
        ∃ t, (processLinks fA keep none us st).1.articles
          = (processLinks fA keep (some k) us st).1.articles ++ t) := by
  intro us
  induction us with
  | nil =>
    intro st hlt
    exact ⟨fun _ => ⟨rfl, hlt⟩, fun h => absurd h (by simp [processLinks])⟩
  | cons u us ih =>
    intro st hlt
    cases ha : fA u with
    | exn =>
      rw [processLinks_exn_eq fA keep (some k) u us st ha,
        processLinks_exn_eq fA keep none u us st ha]
      exact ih _ hlt
    | ok a =>
      rw [processLinks_ok_eq fA keep (some k) u us st a ha,
        processLinks_ok_eq fA keep none u us st a ha]
      by_cases hkp : keep a
      · rw [if_pos hkp, if_pos hkp]
        have hnone : (if limitReached none (st.articles ++ [a]).length then
              ({ st with fetched := st.fetched ++ [u],
                         articles := st.articles ++ [a] }, true)
            else processLinks fA keep none us
              { st with fetched := st.fetched ++ [u],
                        articles := st.articles ++ [a] })
            = processLinks fA keep none us
              { st with fetched := st.fetched ++ [u],
                        articles := st.articles ++ [a] } := by
          rw [limitReached_none]
          simp
        rw [hnone]
        by_cases hl : k ≤ ((st.articles ++ [a]).length : Int)
        · have hcond : limitReached (some k) (st.articles ++ [a]).length
              = true := by
            simp only [limitReached, Bool.and_eq_true, decide_eq_true_eq]
            exact ⟨by omega, hl⟩
          rw [if_pos hcond]
          refine ⟨fun hfalse => by simp at hfalse, fun _ => ⟨?_, ?_⟩⟩
          · dsimp only
            simp only [List.length_append, List.length_cons, List.length_nil]
              at hl ⊢
            push_cast at hl hlt ⊢
            omega
          · obtain ⟨_, _, _, ⟨as, h4⟩⟩ := processLinks_spec fA keep none us
              { st with fetched := st.fetched ++ [u],
                        articles := st.articles ++ [a] }
            exact ⟨as, by rw [h4]⟩
        · have hcond : limitReached (some k) (st.articles ++ [a]).length
              = false := by
            simp only [limitReached, Bool.and_eq_false_iff,
              decide_eq_false_iff_not]
            right
            exact hl
          rw [hcond, if_neg (by simp)]
          refine ih _ ?_
          dsimp only
          simp only [List.length_append, List.length_cons, List.length_nil]
            at hl ⊢
          push_cast at hl ⊢
          omega
      · rw [if_neg hkp, if_neg hkp]
        exact ih _ hlt

theorem pagGo_articles_monotone (env : Nat → PageResult)
    (fA : Str → ArticleResult) (keep : Article → Bool) (limit : Option Int) :
    ∀ (fuel pageNo : Nat) (st : PgState),
      ∃ t, (pagGo env fA keep limit fuel pageNo st).articles
        = st.articles ++ t := by
  intro fuel
  induction fuel with
  | zero => intro pageNo st; exact ⟨[], by simp [pagGo]⟩
  | succ fuel ih =>
    intro pageNo st
    cases he : env pageNo with
    | notFound =>
      exact ⟨[], by
        rw [pagGo_notFound_eq env fA keep limit fuel pageNo st he]; simp⟩
    | fetchError =>
      exact ⟨[], by
        rw [pagGo_error_eq env fA keep limit fuel pageNo st he]; simp⟩
    | ok hrefs =>
      rw [pagGo_ok_eq env fA keep limit fuel pageNo st hrefs he]
      by_cases hnil : (collectLinks hrefs st.seen).1 = []
      · rw [if_pos hnil]
        exact ⟨[], by simp⟩
      · rw [if_neg hnil]
        obtain ⟨_, _, _, ⟨as, h4⟩⟩ := processLinks_spec fA keep limit
          (collectLinks hrefs st.seen).1
          { st with pages := st.pages + 1,
                    seen := (collectLinks hrefs st.seen).2 }
        by_cases he2 : (processLinks fA keep limit (collectLinks hrefs st.seen).1
            { st with pages := st.pages + 1,
                      seen := (collectLinks hrefs st.seen).2 }).2 = true
        · rw [if_pos he2]
          exact ⟨as, by rw [h4]⟩
        · rw [if_neg he2]
          obtain ⟨t2, ht2⟩ := ih (pageNo + 1)
            (processLinks fA keep limit (collectLinks hrefs st.seen).1
              { st with pages := st.pages + 1,
                        seen := (collectLinks hrefs st.seen).2 }).1
          refine ⟨as ++ t2, ?_⟩
          rw [ht2, h4]
          simp

/-- Simulation between the limited and unlimited pagination runs. -/
theorem pagGo_limit_sim (env : Nat → PageResult) (fA : Str → ArticleResult)
    (keep : Article → Bool) (k : Int) (hk : 1 ≤ k) :
    ∀ (fuel pageNo : Nat) (st : PgState), (st.articles.length : Int) < k →
      ((pagGo env fA keep (some k) fuel pageNo st).articles.length : Int) ≤ k ∧
      ∃ t, (pagGo env fA keep none fuel pageNo st).articles
        = (pagGo env fA keep (some k) fuel pageNo st).articles ++ t := by
  intro fuel
  induction fuel with
  | zero =>
    intro pageNo st hlt
    exact ⟨le_of_lt hlt, ⟨[], by simp [pagGo]⟩⟩
  | succ fuel ih =>
    intro pageNo st hlt
    cases he : env pageNo with
    | notFound =>
      rw [pagGo_notFound_eq env fA keep (some k) fuel pageNo st he,
        pagGo_notFound_eq env fA keep none fuel pageNo st he]
      exact ⟨le_of_lt hlt, ⟨[], by simp⟩⟩
    | fetchError =>
      rw [pagGo_error_eq env fA keep (some k) fuel pageNo st he,
        pagGo_error_eq env fA keep none fuel pageNo st he]
      exact ⟨le_of_lt hlt, ⟨[], by simp⟩⟩
    | ok hrefs =>
      rw [pagGo_ok_eq env fA keep (some k) fuel pageNo st hrefs he,
        pagGo_ok_eq env fA keep none fuel pageNo st hrefs he]
      by_cases hnil : (collectLinks hrefs st.seen).1 = []
      · rw [if_pos hnil, if_pos hnil]
        exact ⟨le_of_lt hlt, ⟨[], by simp⟩⟩
      · rw [if_neg hnil, if_neg hnil]
        have hnone2 : (if (processLinks fA keep none
              (collectLinks hrefs st.seen).1
              { st with pages := st.pages + 1,
                        seen := (collectLinks hrefs st.seen).2 }).2 then
            (processLinks fA keep none (collectLinks hrefs st.seen).1
              { st with pages := st.pages + 1,
                        seen := (collectLinks hrefs st.seen).2 }).1
          else pagGo env fA keep none fuel (pageNo + 1)
            (processLinks fA keep none (collectLinks hrefs st.seen).1
              { st with pages := st.pages + 1,
                        seen := (collectLinks hrefs st.seen).2 }).1)
            = pagGo env fA keep none fuel (pageNo + 1)
              (processLinks fA keep none (collectLinks hrefs st.seen).1
                { st with pages := st.pages + 1,
                          seen := (collectLinks hrefs st.seen).2 }).1 := by
          rw [processLinks_none_no_early fA keep (collectLinks hrefs st.seen).1
            { st with pages := st.pages + 1,
                      seen := (collectLinks hrefs st.seen).2 }]
          simp
        rw [hnone2]
        obtain ⟨hsim1, hsim2⟩ := processLinks_limit_sim fA keep k hk
          (collectLinks hrefs st.seen).1
          { st with pages := st.pages + 1,
                    seen := (collectLinks hrefs st.seen).2 } hlt
        by_cases hearly : (processLinks fA keep (some k)
            (collectLinks hrefs st.seen).1
            { st with pages := st.pages + 1,
                      seen := (collectLinks hrefs st.seen).2 }).2 = true
        · rw [if_pos hearly]
          obtain ⟨hlen, ⟨t0, ht0⟩⟩ := hsim2 hearly
          obtain ⟨t1, ht1⟩ := pagGo_articles_monotone env fA keep none fuel
            (pageNo + 1)
            (processLinks fA keep none (collectLinks hrefs st.seen).1
              { st with pages := st.pages + 1,
                        seen := (collectLinks hrefs st.seen).2 }).1
          refine ⟨le_of_eq hlen, ⟨t0 ++ t1, ?_⟩⟩
          rw [ht1, ht0]
          simp
        · rw [if_neg hearly]
          obtain ⟨heq, hlt2⟩ := hsim1 (by simpa using hearly)
          rw [← heq]
          exact ih (pageNo + 1) _ hlt2

/-- The article each URL contributes to a `fetch_articles` crawl whose
fetches raise no non-Request exception: the parsed article, or the "Error"
placeholder for a RequestException, filtered by the date filter. -/
def crawlResult (env : Str → FetchOutcome) (keep : Article → Bool)
    (today : Str) (urls : List Str) : List Article :=
  urls.filterMap fun u =>
    match env u with
    | .ok a => if keep a then some a else none
    | .requestExc =>
      if keep ⟨"Error".toList, u, today, []⟩ then
        some ⟨"Error".toList, u, today, []⟩
      else none
    | .otherExc => none

theorem fetchArticlesGo_cons_eq (env : Str → FetchOutcome)
    (keep : Article → Bool) (today u : Str) (us : List Str)
    (acc : List Article) (a : Article)
    (hfa : fetch_article env today u = .ok a) :
    fetchArticlesGo env keep today (u :: us) acc
      = (if keep a then fetchArticlesGo env keep today us (acc ++ [a])
        else fetchArticlesGo env keep today us acc) := by
  rw [fetchArticlesGo, hfa]

theorem fetchArticlesGo_ok (env : Str → FetchOutcome) (keep : Article → Bool)
    (today : Str) :
    ∀ (us : List Str) (acc : List Article), (∀ u ∈ us, env u ≠ .otherExc) →
      fetchArticlesGo env keep today us acc
        = .ok (acc ++ crawlResult env keep today us) := by
  intro us
  induction us with
  | nil => intro acc _; simp [fetchArticlesGo, crawlResult]
  | cons u us ih =>
    intro acc h
    have hrest : ∀ x ∈ us, env x ≠ .otherExc :=
      fun x hx => h x (List.mem_cons_of_mem u hx)
    cases he : env u with
    | ok a =>
      have hfa : fetch_article env today u = .ok a := by rw [fetch_article, he]
      rw [fetchArticlesGo_cons_eq env keep today u us acc a hfa]
      by_cases hkp : keep a
      · rw [if_pos hkp, ih (acc ++ [a]) hrest]
        congr 1
        simp only [crawlResult, List.filterMap_cons, he, if_pos hkp]
        simp
      · rw [if_neg hkp, ih acc hrest]
        congr 1
        simp only [crawlResult, List.filterMap_cons, he, if_neg hkp]
    | requestExc =>
      have hfa : fetch_article env today u
          = .ok ⟨"Error".toList, u, today, []⟩ := by
        rw [fetch_article, he]
      rw [fetchArticlesGo_cons_eq env keep today u us acc _ hfa]
      by_cases hkp : keep (⟨"Error".toList, u, today, []⟩ : Article)
      · rw [if_pos hkp, ih _ hrest]
        congr 1
        simp only [crawlResult, List.filterMap_cons, he, if_pos hkp]
        simp
      · rw [if_neg hkp, ih acc hrest]
        congr 1
        simp only [crawlResult, List.filterMap_cons, he, if_neg hkp]
    | otherExc => exact absurd he (h u (List.mem_cons_self u us))

theorem fetch_articles_ok (urls : List Str) (env : Str → FetchOutcome)
    (keep : Article → Bool) (limit : Option Int) (today : Str)
    (h : ∀ u ∈ applyLimit limit urls, env u ≠ .otherExc) :
    fetch_articles urls env keep limit today
      = .ok (crawlResult env keep today (applyLimit limit urls)) := by
  rw [fetch_articles, fetchArticlesGo_ok env keep today _ [] h]
  simp

theorem applyLimit_pos {α : Type} (k : Int) (hk : 1 ≤ k) (l : List α) :
    applyLimit (some k) l = l.take k.toNat := by
  rw [applyLimit, if_pos (by omega), pySliceTo, if_pos (by omega)]

/-- C5 counterexample: the limit is tested for truthiness, so limit = 0
applies no bound at all — a one-item feed crawled with limit 0 yields one
article, not at most zero. -/
theorem C5_zero_limit_counterexample :
    fetch_wordpress_rss (.ok [⟨"a".toList, "b".toList, "c".toList, "h".toList⟩])
        (fun _ => true) (some 0)
      = [⟨"a".toList, "b".toList, "c".toList, "h".toList⟩] ∧
    ¬(((fetch_wordpress_rss
        (.ok [⟨"a".toList, "b".toList, "c".toList, "h".toList⟩])
        (fun _ => true) (some 0)).length : Int) ≤ 0) := by
  constructor
  · rfl
  · decide

/-- C5 amended: for every limit k ≥ 1, each crawler variant returns at most
k articles, and the returned sequence is an initial segment — the first
articles in discovery order — of what the same crawl returns without a
limit.  (`fetch_articles` slices the URL list before fetching, so it can
return fewer than k even when k survive downstream, but still a prefix.) -/
theorem C5_limit_bound (k : Int) (hk : 1 ≤ k) :
    (∀ (feed : Except Unit (List Article)) (keep : Article → Bool),
      ((fetch_wordpress_rss feed keep (some k)).length : Int) ≤ k ∧
      fetch_wordpress_rss feed keep (some k)
        <+: fetch_wordpress_rss feed keep none) ∧
    (∀ (feed : Except Unit (List RayItem)) (fA : Str → ArticleResult)
        (keep : Str → Bool),
      ((fetch_ray_articles feed fA keep (some k)).length : Int) ≤ k ∧
      fetch_ray_articles feed fA keep (some k)
        <+: fetch_ray_articles feed fA keep none) ∧
    (∀ (env : Nat → PageResult) (fA : Str → ArticleResult)
        (keep : Article → Bool),
      (((fetch_paginated_posts env fA keep (some k)).articles.length : Int)
        ≤ k ∧
      (fetch_paginated_posts env fA keep (some k)).articles
        <+: (fetch_paginated_posts env fA keep none).articles)) ∧
    (∀ (urls : List Str) (env : Str → FetchOutcome) (keep : Article → Bool)
        (today : Str), (∀ u, env u ≠ FetchOutcome.otherExc) →
      fetch_articles urls env keep (some k) today
        = .ok (crawlResult env keep today (urls.take k.toNat)) ∧
      ((crawlResult env keep today (urls.take k.toNat)).length : Int) ≤ k ∧
      crawlResult env keep today (urls.take k.toNat)
        <+: crawlResult env keep today urls) := by
  refine ⟨?_, ?_, ?_, ?_⟩
  · intro feed keep
    cases feed with
    | error e =>
      refine ⟨?_, List.prefix_rfl⟩
      simp only [fetch_wordpress_rss, List.length_nil, Int.ofNat_eq_coe]
      omega
    | ok items =>
      exact wpGo_limit keep k hk items [] (by simpa using hk)
  · intro feed fA keep
    cases feed with
    | error e =>
      refine ⟨?_, List.prefix_rfl⟩
      simp only [fetch_ray_articles, List.length_nil, Int.ofNat_eq_coe]
      omega
    | ok items =>
      exact rayGo_limit fA keep k hk items [] (by simpa using hk)
  · intro env fA keep
    obtain ⟨h1, ⟨t, ht⟩⟩ := pagGo_limit_sim env fA keep k hk MAX_PAGES 1
      ⟨[], [], [], 0⟩ (by simpa using hk)
    exact ⟨h1, ⟨t, ht.symm⟩⟩
  · intro urls env keep today h
    rw [← applyLimit_pos k hk urls]
    refine ⟨fetch_articles_ok urls env keep (some k) today
      (fun u _ => h u), ?_, ?_⟩
    · rw [applyLimit_pos k hk urls]
      have h1 := List.length_filterMap_le (fun u =>
        match env u with
        | .ok a => if keep a then some a else none
        | .requestExc =>
          if keep ⟨"Error".toList, u, today, []⟩ then
            some (⟨"Error".toList, u, today, []⟩ : Article)
          else none
        | .otherExc => none) (urls.take k.toNat)
      have h2 : (urls.take k.toNat).length ≤ k.toNat :=
        le_trans (List.length_take_le _ _) (le_refl _)
      rw [crawlResult]
      have h3 : ((urls.take k.toNat).filterMap fun u =>
          match env u with
          | .ok a => if keep a then some a else none
          | .requestExc =>
            if keep ⟨"Error".toList, u, today, []⟩ then
              some (⟨"Error".toList, u, today, []⟩ : Article)
            else none
          | .otherExc => none).length ≤ k.toNat := le_trans h1 h2
      calc (((urls.take k.toNat).filterMap _).length : Int)
          ≤ (k.toNat : Int) := by exact_mod_cast h3
        _ = k := Int.toNat_of_nonneg (by omega)
    · rw [applyLimit_pos k hk urls, crawlResult, crawlResult]
      exact List.IsPrefix.filterMap _ (List.take_prefix k.toNat urls)

theorem C5_limit_bound_witness :
    (1 : Int) ≤ 1 ∧
      (((fetch_wordpress_rss
          (.ok [⟨"a".toList, "b".toList, "c".toList, "h".toList⟩,
                ⟨"e".toList, "f".toList, "g".toList, "i".toList⟩])
          (fun _ => true) (some 1)).length : Int) ≤ 1 ∧
        fetch_wordpress_rss
            (.ok [⟨"a".toList, "b".toList, "c".toList, "h".toList⟩,
                  ⟨"e".toList, "f".toList, "g".toList, "i".toList⟩])
            (fun _ => true) (some 1)
          <+: fetch_wordpress_rss
            (.ok [⟨"a".toList, "b".toList, "c".toList, "h".toList⟩,
                  ⟨"e".toList, "f".toList, "g".toList, "i".toList⟩])
            (fun _ => true) none) :=
  ⟨by norm_num, (C5_limit_bound 1 (by norm_num)).1
    (.ok [⟨"a".toList, "b".toList, "c".toList, "h".toList⟩,
          ⟨"e".toList, "f".toList, "g".toList, "i".toList⟩])
    (fun _ => true)⟩

theorem wpGo_congr_limit (keep : Article → Bool) (l1 l2 : Option Int)
    (h : ∀ n, limitReached l1 n = limitReached l2 n) :
    ∀ (its acc : List Article), wpGo keep l1 its acc = wpGo keep l2 its acc := by
  intro its
  induction its with
  | nil => intro acc; rfl
  | cons it its ih =>
    intro acc
    rw [wpGo, wpGo]
    by_cases hkp : keep it
    · rw [if_pos hkp, if_pos hkp, h]
      by_cases hc : limitReached l2 (acc ++ [it]).length = true
      · rw [if_pos hc, if_pos hc]
      · rw [if_neg hc, if_neg hc, ih]
    · rw [if_neg hkp, if_neg hkp, ih]

theorem rayGo_congr_limit (fA : Str → ArticleResult) (keep : Str → Bool)
    (l1 l2 : Option Int) (h : ∀ n, limitReached l1 n = limitReached l2 n) :
    ∀ (its : List RayItem) (acc : List Article),
      rayGo fA keep l1 its acc = rayGo fA keep l2 its acc := by
  intro its
  induction its with
  | nil => intro acc; rfl
  | cons it its ih =>
    intro acc
    by_cases h1 : it.url = []
    · rw [rayGo_skip_url fA keep l1 it its acc h1,
        rayGo_skip_url fA keep l2 it its acc h1, ih]
    by_cases h2 : keep it.published_at = false
    · rw [rayGo_skip_keep fA keep l1 it its acc h1 h2,
        rayGo_skip_keep fA keep l2 it its acc h1 h2, ih]
    cases h3 : fA it.url with
    | exn =>
      rw [rayGo_skip_exn fA keep l1 it its acc h1 h2 h3,
        rayGo_skip_exn fA keep l2 it its acc h1 h2 h3, ih]
    | ok a =>
      rw [rayGo_ok_eq fA keep l1 it its acc a h1 h2 h3,
        rayGo_ok_eq fA keep l2 it its acc a h1 h2 h3, h]
      by_cases hc : limitReached l2 (acc ++ [rayAdjust it a]).length = true
      · rw [if_pos hc, if_pos hc]
      · rw [if_neg hc, if_neg hc, ih]

theorem processLinks_congr_limit (fA : Str → ArticleResult)
    (keep : Article → Bool) (l1 l2 : Option Int)
    (h : ∀ n, limitReached l1 n = limitReached l2 n) :
    ∀ (us : List Str) (st : PgState),
      processLinks fA keep l1 us st = processLinks fA keep l2 us st := by
  intro us
  induction us with
  | nil => intro st; rfl
  | cons u us ih =>
    intro st
    cases ha : fA u with
    | exn =>
      rw [processLinks_exn_eq fA keep l1 u us st ha,
        processLinks_exn_eq fA keep l2 u us st ha, ih]
    | ok a =>
      rw [processLinks_ok_eq fA keep l1 u us st a ha,
        processLinks_ok_eq fA keep l2 u us st a ha, h]
      by_cases hkp : keep a
      · rw [if_pos hkp, if_pos hkp]
        by_cases hc : limitReached l2 (st.articles ++ [a]).length = true
        · rw [if_pos hc, if_pos hc]
        · rw [if_neg hc, if_neg hc, ih]
      · rw [if_neg hkp, if_neg hkp, ih]

theorem pagGo_congr_limit (env : Nat → PageResult) (fA : Str → ArticleResult)
    (keep : Article → Bool) (l1 l2 : Option Int)
    (h : ∀ n, limitReached l1 n = limitReached l2 n) :
    ∀ (fuel pageNo : Nat) (st : PgState),
      pagGo env fA keep l1 fuel pageNo st = pagGo env fA keep l2 fuel pageNo st := by
  intro fuel
  induction fuel with
  | zero => intro pageNo st; rfl
  | succ fuel ih =>
    intro pageNo st
    cases he : env pageNo with
    | notFound =>
      rw [pagGo_notFound_eq env fA keep l1 fuel pageNo st he,
        pagGo_notFound_eq env fA keep l2 fuel pageNo st he]
    | fetchError =>
      rw [pagGo_error_eq env fA keep l1 fuel pageNo st he,
        pagGo_error_eq env fA keep l2 fuel pageNo st he]
    | ok hrefs =>
      rw [pagGo_ok_eq env fA keep l1 fuel pageNo st hrefs he,
        pagGo_ok_eq env fA keep l2 fuel pageNo st hrefs he]
      simp only [processLinks_congr_limit fA keep l1 l2 h]
      by_cases hnil : (collectLinks hrefs st.seen).1 = []
      · rw [if_pos hnil, if_pos hnil]
      · rw [if_neg hnil, if_neg hnil]
        by_cases hearly : (processLinks fA keep l2 (collectLinks hrefs st.seen).1
            { st with pages := st.pages + 1,
                      seen := (collectLinks hrefs st.seen).2 }).2 = true
        · rw [if_pos hearly, if_pos hearly]
        · rw [if_neg hearly, if_neg hearly, ih]

/-- C10: every crawler variant tests `limit` for truthiness, so calling it
with limit = 0 behaves identically to limit = None: all discovered Articles
are returned with no bound applied. -/
theorem C10_zero_limit_is_none :
    (∀ (feed : Except Unit (List Article)) (keep : Article → Bool),
      fetch_wordpress_rss feed keep (some 0)
        = fetch_wordpress_rss feed keep none) ∧
    (∀ (feed : Except Unit (List RayItem)) (fA : Str → ArticleResult)
        (keep : Str → Bool),
      fetch_ray_articles feed fA keep (some 0)
        = fetch_ray_articles feed fA keep none) ∧
    (∀ (env : Nat → PageResult) (fA : Str → ArticleResult)
        (keep : Article → Bool),
      fetch_paginated_posts env fA keep (some 0)
        = fetch_paginated_posts env fA keep none) ∧
    (∀ (urls : List Str) (env : Str → FetchOutcome) (keep : Article → Bool)
        (today : Str),
      fetch_articles urls env keep (some 0) today
        = fetch_articles urls env keep none today) := by
  refine ⟨?_, ?_, ?_, ?_⟩
  · intro feed keep
    cases feed with
    | error e => rfl
    | ok items =>
      exact wpGo_congr_limit keep (some 0) none limitReached_zero items []
  · intro feed fA keep
    cases feed with
    | error e => rfl
    | ok items =>
      exact rayGo_congr_limit fA keep (some 0) none limitReached_zero items []
  · intro env fA keep
    exact pagGo_congr_limit env fA keep (some 0) none limitReached_zero
      MAX_PAGES 1 ⟨[], [], [], 0⟩
  · intro urls env keep today
    rw [fetch_articles, fetch_articles,
      show applyLimit (some (0 : Int)) urls = urls by
        rw [applyLimit, if_neg (by simp)]]
    rfl

/-- C8 counterexample: when both request attempts fail, `fetch_single_url`
propagates the exception to its caller instead of returning the (empty) list
of articles accumulated so far. -/
theorem C8_single_url_counterexample :
    fetch_single_url (.error ()) (.error ()) "d".toList "u".toList
      = .error () := rfl

/-- C8 amended: a top-level fetch failure makes `fetch_wordpress_rss` and
`fetch_ray_articles` return the (empty) list accumulated so far, and makes
`fetch_paginated_posts` return everything accumulated before the failing
page; `fetch_single_url` alone returns normally only while at least one of
its two request attempts succeeds, and propagates the exception when both
fail. -/
theorem C8_top_level_failure :
    (∀ (keep : Article → Bool) (limit : Option Int),
      fetch_wordpress_rss (.error ()) keep limit = []) ∧
    (∀ (fA : Str → ArticleResult) (keep : Str → Bool) (limit : Option Int),
      fetch_ray_articles (.error ()) fA keep limit = []) ∧
    (∀ (env : Nat → PageResult) (fA : Str → ArticleResult)
        (keep : Article → Bool) (limit : Option Int) (fuel pageNo : Nat)
        (st : PgState), env pageNo = PageResult.fetchError →
      pagGo env fA keep limit (fuel + 1) pageNo st
        = { st with pages := st.pages + 1 }) ∧
    (∀ (p : SinglePage) (today url : Str),
      fetch_single_url (.error ()) (.ok p) today url
        = .ok [⟨p.title.getD url, url, today, p.html⟩]) ∧
    (∀ (today url : Str),
      fetch_single_url (.error ()) (.error ()) today url = .error ()) := by
  refine ⟨fun _ _ => rfl, fun _ _ _ => rfl, ?_, fun _ _ _ => rfl,
    fun _ _ => rfl⟩
  intro env fA keep limit fuel pageNo st he
  exact pagGo_error_eq env fA keep limit fuel pageNo st he

theorem C8_top_level_failure_witness :
    (fun _ => PageResult.fetchError) 1 = PageResult.fetchError ∧
      pagGo (fun _ => PageResult.fetchError) (fun _ => ArticleResult.exn)
          (fun _ => true) none (0 + 1) 1 ⟨[], [], [], 0⟩
        = { (⟨[], [], [], 0⟩ : PgState) with pages := (0 : Nat) + 1 } :=
  ⟨rfl, C8_top_level_failure.2.2.1 (fun _ => PageResult.fetchError)
    (fun _ => ArticleResult.exn) (fun _ => true) none 0 1 ⟨[], [], [], 0⟩ rfl⟩

/-- C9 counterexample: a single-article fetch failure does not make the
article disappear from the crawl — `fetch_articles` over one URL whose fetch
raises a RequestException returns the "Error" placeholder article for that
URL, so the failed Article appears in the returned sequence instead of being
skipped. -/
theorem C9_error_article_counterexample :
    fetch_articles ["u".toList] (fun _ => FetchOutcome.requestExc)
        (fun _ => true) none "d".toList
      = .ok [⟨"Error".toList, "u".toList, "d".toList, []⟩] := rfl

/-- C9 amended: a requests-level fetch failure of one article is caught
inside `fetch_article`, which returns an "Error" placeholder article (empty
raw_html) that is appended to the crawl results subject only to the date
filter; the crawl continues — the url-by-url characterization of
`fetch_articles` shows every remaining URL is still attempted — and in the
paginated loop any other per-article exception is caught and only that
article skipped. -/
theorem C9_failure_isolated (env : Str → FetchOutcome) (keep : Article → Bool)
    (today : Str) :
    (∀ u, env u = .requestExc →
      fetch_article env today u = .ok ⟨"Error".toList, u, today, []⟩) ∧
    (∀ (urls : List Str) (limit : Option Int),
      (∀ u ∈ applyLimit limit urls, env u ≠ .otherExc) →
      fetch_articles urls env keep limit today
        = .ok (crawlResult env keep today (applyLimit limit urls))) ∧
    (∀ (fA : Str → ArticleResult) (keepA : Article → Bool)
        (limit : Option Int) (u : Str) (us : List Str) (st : PgState),
      fA u = .exn →
      processLinks fA keepA limit (u :: us) st
        = processLinks fA keepA limit us
            { st with fetched := st.fetched ++ [u] }) := by
  refine ⟨?_, ?_, ?_⟩
  · intro u hu
    rw [fetch_article, hu]
  · intro urls limit h
    exact fetch_articles_ok urls env keep limit today h
  · intro fA keepA limit u us st hu
    exact processLinks_exn_eq fA keepA limit u us st hu

theorem C9_failure_isolated_witness :
    (fun _ => FetchOutcome.requestExc) "u".toList = FetchOutcome.requestExc ∧
      fetch_article (fun _ => FetchOutcome.requestExc) "d".toList "u".toList
        = .ok ⟨"Error".toList, "u".toList, "d".toList, []⟩ :=
  ⟨rfl, (C9_failure_isolated (fun _ => FetchOutcome.requestExc)
    (fun _ => true) "d".toList).1 "u".toList rfl⟩

end NioHarvest
